import Mathlib

/-!
Verification development for the `mbox-indexer` streaming engine
(`src/lib.rs`).  The embedding models the two components of the crate:

* `MessageBoundaryReader` — the boundary-detecting buffered reader, with
  its fixed-capacity buffer, the four offsets `ready_start`, `ready_end`,
  `held_back`, `buffer_end`, and the optional `next_message_start`;
* `MboxReader` — the thin per-message sequencer (`next`).

Bytes are `Nat`s (the `u8` values in play are all < 256 and no arithmetic
overflows occur).  The buffer (`vec![0; DEFAULT_CAPACITY]` in Rust) is
modelled as a total function `Nat → Nat` together with its constant
length `cap`; `Vec::remove`/`push` and `copy_within` become pointwise
re-indexings.  The underlying `Read` source is a byte list `data`
(matching the `&[u8]` reader used by the crate's tests, which returns
`min(buf.len(), remaining)` bytes per call) plus a `plan` that lets a
call return an `io` error or a truncated read, so failure behavior can be
analysed; the plain slice source is `plan = []`.

Rust loops are modelled with explicit fuel; each fuel bound used is
sufficient for the loop's own exit condition, so the fueled function
agrees with the unbounded loop (the `readLoop` fuel `cap + 1` dominates
the at most `cap - buffer_end + 1` iterations of the refill loop).

The field `removed` is a ghost counter of escape bytes (`'>'`) removed by
the in-place shift; it influences no control flow and exists only so that
byte-conservation statements can mention the number of removed bytes.
-/

namespace Mbox

/-- Model of the underlying `Read` source: remaining bytes plus a plan of
per-call behaviors.  `none` makes the call fail with an `io` error,
`some k` caps the bytes returned by that call at `k`.  When the plan is
exhausted the source behaves like the byte slice (`&[u8]`) reader used in
the crate's tests: each call returns `min n remaining` bytes. -/
structure Src where
  data : List Nat
  plan : List (Option Nat)
  deriving Repr, DecidableEq

/-- One call of `Read::read` on the modelled source with a free space of
`n` bytes.  On error the source state after the failed call is carried in
the `error` payload. -/
def Src.read (s : Src) (n : Nat) : Except Src (List Nat × Src) :=
  match s.plan with
  | [] => .ok (s.data.take n, ⟨s.data.drop n, []⟩)
  | none :: rest => .error ⟨s.data, rest⟩
  | some k :: rest => .ok (s.data.take (min n k), ⟨s.data.drop (min n k), rest⟩)

/-- `DEFAULT_CAPACITY` from the source. -/
def DEFAULT_CAPACITY : Nat := 8192

/-- `MAGIC_WORD`: `\n` `F` `r` `o` `m` space. -/
def MAGIC_WORD : List Nat := [10, 70, 114, 111, 109, 32]

/-- The bytes `F` `r` `o` `m` space (the literal `b"From "`). -/
def fromWord : List Nat := [70, 114, 111, 109, 32]

/-- The bytes `\n` `>` (the literal `b"\n>"`). -/
def newlineGt : List Nat := [10, 62]

/-- Write the bytes `bs` into buffer `b` starting at index `s`
(`buf[s..s+bs.len()].copy_from_slice(bs)`). -/
def writeBytes (b : Nat → Nat) (s : Nat) (bs : List Nat) : Nat → Nat :=
  fun i => if s ≤ i ∧ i < s + bs.length then bs.getD (i - s) 0 else b i

/-- `buffer.copy_within(src..src+len, 0)`. -/
def copyLeft (b : Nat → Nat) (src len : Nat) : Nat → Nat :=
  fun i => if i < len then b (src + i) else b i

/-- `buffer.remove(idx); buffer.push(0)` on a buffer of length `cap`:
bytes after `idx` shift one slot left and the tail is refilled with 0. -/
def removeAt1 (b : Nat → Nat) (idx cap : Nat) : Nat → Nat :=
  fun i => if i < idx then b i else if i + 1 < cap then b (i + 1) else 0

/-- The byte list `b[s..e]` (a borrowed slice in Rust). -/
def extract (b : Nat → Nat) (s e : Nat) : List Nat :=
  (List.range (e - s)).map (fun i => b (s + i))

/-- Whether `pat` is an initial run of `l` (used to define substring
search). -/
def leadsList : List Nat → List Nat → Bool
  | [], _ => true
  | _ :: _, [] => false
  | a :: pa, b :: lb => a == b && leadsList pa lb

/-- `memmem::find(hay, pat)`: index of the first occurrence of `pat` in
`hay`. -/
def findSub : List Nat → List Nat → Option Nat
  | hay, pat =>
    match hay with
    | [] => if leadsList pat [] then some 0 else none
    | _ :: t => if leadsList pat hay then some 0 else (findSub t pat).map (· + 1)

/-- `memchr(x, hay)`: index of the first occurrence of the byte `x`. -/
def findByte : List Nat → Nat → Option Nat
  | [], _ => none
  | a :: t, x => if a = x then some 0 else (findByte t x).map (· + 1)

/-- State of `MessageBoundaryReader` (`src/lib.rs`, lines 73–81).  `cap`
is `buffer.len()`, constant at `DEFAULT_CAPACITY` for readers built by
`new`.  `removed` is the ghost count of escape bytes removed. -/
structure MessageBoundaryReader where
  src : Src
  cap : Nat
  buffer : Nat → Nat
  buffer_end : Nat
  ready_start : Nat
  ready_end : Nat
  held_back : Nat
  next_message_start : Option Nat
  removed : Nat

/-- `MessageBoundaryReader::new`. -/
def MessageBoundaryReader.new (s : Src) : MessageBoundaryReader :=
  { src := s, cap := DEFAULT_CAPACITY, buffer := fun _ => 0, buffer_end := 0,
    ready_start := 0, ready_end := 0, held_back := 0,
    next_message_start := none, removed := 0 }

/-- `eom`: true iff the reader stopped right before the next message. -/
def eom (r : MessageBoundaryReader) : Bool :=
  match r.next_message_start with
  | some i => i == r.ready_start
  | none => false

/-- `reset_eom` (the `assert!(self.eom())` is a precondition carried by
the theorems that use this). -/
def reset_eom (r : MessageBoundaryReader) : MessageBoundaryReader :=
  { r with next_message_start := none }

/-- `consume` (the `assert!(amt <= ready_end - ready_start)` is a
precondition carried by the theorems that use this). -/
def consume (r : MessageBoundaryReader) (amt : Nat) : MessageBoundaryReader :=
  { r with ready_start := r.ready_start + amt }

/-- The read loop of `fill_buf` (lines 166–173): read into
`buffer[buffer_end..]` until the buffer is full or a read returns no
bytes, mirroring `held_back = buffer_end` after each read.  Fuel bounds
the iterations; every non-final iteration adds at least one byte, so any
fuel with `cap ≤ fuel + be` reproduces the unbounded loop. -/
def readLoop : Nat → Src → (Nat → Nat) → Nat → Nat →
    Except (Src × (Nat → Nat) × Nat) (Src × (Nat → Nat) × Nat)
  | 0, s, b, be, _ => .ok (s, b, be)
  | fuel + 1, s, b, be, cap =>
    if be < cap then
      match Src.read s (cap - be) with
      | .error s' => .error (s', b, be)
      | .ok (bs, s') =>
        let b' := writeBytes b be bs
        let be' := be + bs.length
        if bs.length = 0 then .ok (s', b', be')
        else readLoop fuel s' b' be' cap
    else .ok (s, b, be)

/-- The `held_back` position computed after the read loop (lines
175–183): when at least `MAGIC_WORD.len()` bytes are buffered, check the
final five bytes for a newline and hold back from the first one found;
otherwise nothing is deferred. -/
def heldBackAfter (b : Nat → Nat) (be : Nat) : Nat :=
  if 6 ≤ be then
    match findByte (extract b (be - 5) be) 10 with
    | some i => be - 5 + i
    | none => be
  else be

/-- The refill step of `fill_buf` (lines 153–183): move held-back bytes
to the front, rebase the offsets, run the read loop, then hold back from
the first newline among the final five bytes when at least
`MAGIC_WORD.len()` bytes are buffered.  On a source error the offsets
have already been rebased (as in the Rust code, where these writes
precede the failing `?`). -/
def refill (r : MessageBoundaryReader) : Except MessageBoundaryReader MessageBoundaryReader :=
  let nhb := r.buffer_end - r.held_back
  let b0 := copyLeft r.buffer r.held_back nhb
  match readLoop (r.cap + 1) r.src b0 nhb r.cap with
  | .error (s', b', be') =>
    .error { r with src := s', buffer := b', ready_start := 0, ready_end := 0,
                    buffer_end := be', held_back := be' }
  | .ok (s', b', be') =>
    .ok { r with src := s', buffer := b', ready_start := 0, ready_end := 0,
                 buffer_end := be', held_back := heldBackAfter b' be' }

/-- The magic-word scan of `fill_buf` (lines 193–202). -/
def marker_scan (r : MessageBoundaryReader) : MessageBoundaryReader :=
  match findSub (extract r.buffer r.ready_start r.held_back) MAGIC_WORD with
  | some i =>
    { r with ready_end := r.ready_start + i + 1,
             next_message_start := some (r.ready_start + i + 1) }
  | none => { r with ready_end := r.held_back }

/-- The escape-removal step of `fill_buf` (lines 205–219): find `\n>` in
the ready window, find `From ` after it, and when only `>` bytes stand
between, remove the first `>` by an in-place shift and decrement
`ready_end`, `held_back`, `buffer_end` and `next_message_start`. -/
def escape_step (r : MessageBoundaryReader) : MessageBoundaryReader :=
  match findSub (extract r.buffer r.ready_start r.ready_end) newlineGt with
  | none => r
  | some off =>
    let flt := r.ready_start + off + 1
    match findSub (extract r.buffer flt r.ready_end) fromWord with
    | none => r
    | some fo =>
      if (extract r.buffer flt (flt + fo)).all (fun b => b == 62) then
        { r with buffer := removeAt1 r.buffer flt r.cap,
                 ready_end := r.ready_end - 1,
                 held_back := r.held_back - 1,
                 buffer_end := r.buffer_end - 1,
                 next_message_start := r.next_message_start.map (fun x => x - 1),
                 removed := r.removed + 1 }
      else r

/-- `fill_buf` (lines 142–222): return the ready window if nonempty;
return no bytes at a pending boundary; otherwise refill when the whole
buffer was consumed (keeping offsets when continuing after `reset_eom`),
scan for the magic word, and apply the escape-removal step. -/
def fill_buf (r : MessageBoundaryReader) :
    Except MessageBoundaryReader (List Nat × MessageBoundaryReader) :=
  if r.ready_start = r.ready_end then
    if r.next_message_start.isSome then .ok ([], r)
    else
      match (if r.ready_end = r.held_back then refill r else .ok r) with
      | .error r' => .error r'
      | .ok r1 =>
        let r3 := escape_step (marker_scan r1)
        .ok (extract r3.buffer r3.ready_start r3.ready_end, r3)
  else .ok (extract r.buffer r.ready_start r.ready_end, r)

/-- `Read::read` for `MessageBoundaryReader` (lines 131–139). -/
def read (r : MessageBoundaryReader) (n : Nat) :
    Except MessageBoundaryReader (List Nat × MessageBoundaryReader) :=
  match fill_buf r with
  | .error r' => .error r'
  | .ok (avail, r1) =>
    let copied := min avail.length n
    .ok (avail.take copied, consume r1 copied)

/-- `eof` (lines 107–109); `&&` short-circuits, so `fill_buf` only runs
when `eom` is false. -/
def eof (r : MessageBoundaryReader) :
    Except MessageBoundaryReader (Bool × MessageBoundaryReader) :=
  if eom r then .ok (false, r)
  else
    match fill_buf r with
    | .error r' => .error r'
    | .ok (w, r1) => .ok (w.isEmpty, r1)

/-- `skip_message` (lines 119–128), with fuel for the loop (`none` is
fuel exhaustion, never hit from reachable states with enough fuel). -/
def skip_message : Nat → MessageBoundaryReader →
    Option (Except MessageBoundaryReader MessageBoundaryReader)
  | 0, _ => none
  | fuel + 1, r =>
    match fill_buf r with
    | .error r' => some (.error r')
    | .ok (w, r1) =>
      if w.length = 0 then some (.ok r1)
      else skip_message fuel (consume r1 w.length)

/-- State of `MboxReader`: the wrapped boundary reader and the one-shot
`first` flag. -/
structure MboxReader where
  inner : MessageBoundaryReader
  first : Bool

/-- `MboxReader::new`. -/
def MboxReader.new (s : Src) : MboxReader :=
  { inner := MessageBoundaryReader.new s, first := true }

/-- Outcome of `MboxReader::next`: a record handle (which borrows the
inner reader, so the handle is the updated reader itself), end of
stream, or an `io` error. -/
inductive NextOut where
  | entry (m : MboxReader)
  | finished (m : MboxReader)
  | ioErr (m : MboxReader)

/-- `MboxReader::next` (lines 26–47).  Fuel feeds `skip_message`; the
final `none` models the `assert!(self.inner.eom())` (unreachable after
`skip_message`, whose postcondition is `eom ∨ eof`). -/
def MboxReader.next (fuel : Nat) (m : MboxReader) : Option NextOut :=
  match eof m.inner with
  | .error r' => some (.ioErr ⟨r', m.first⟩)
  | .ok (true, r') => some (.finished ⟨r', m.first⟩)
  | .ok (false, r') =>
    if m.first then some (.entry ⟨r', false⟩)
    else if eom r' then some (.entry ⟨reset_eom r', false⟩)
    else
      match skip_message fuel r' with
      | none => none
      | some (.error r'') => some (.ioErr ⟨r'', false⟩)
      | some (.ok r'') =>
        match eof r'' with
        | .error r3 => some (.ioErr ⟨r3, false⟩)
        | .ok (true, r3) => some (.finished ⟨r3, false⟩)
        | .ok (false, r3) =>
          if eom r3 then some (.entry ⟨reset_eom r3, false⟩)
          else none

/-- Fully reading one record (`read_to_end` through the `BufRead`
interface: repeat `fill_buf` and `consume` everything until no bytes
come back).  `none` is fuel exhaustion. -/
def drainMsg : Nat → MessageBoundaryReader →
    Option (Except MessageBoundaryReader (List Nat × MessageBoundaryReader))
  | 0, _ => none
  | fuel + 1, r =>
    match fill_buf r with
    | .error r' => some (.error r')
    | .ok (w, r1) =>
      if w.length = 0 then some (.ok ([], r1))
      else
        match drainMsg fuel (consume r1 w.length) with
        | none => none
        | some (.error r'') => some (.error r'')
        | some (.ok (rest, r'')) => some (.ok (w ++ rest, r''))

/-- The consumer loop of the crate's `mbox_reader` test: call `next`
until it yields nothing, fully reading each record; collect the records
and the final reader state. -/
def runAll : Nat → MboxReader →
    Option (Except MessageBoundaryReader (List (List Nat) × MessageBoundaryReader))
  | 0, _ => none
  | fuel + 1, m =>
    match MboxReader.next (fuel + 1) m with
    | none => none
    | some (.ioErr m') => some (.error m'.inner)
    | some (.finished m') => some (.ok ([], m'.inner))
    | some (.entry m') =>
      match drainMsg (fuel + 1) m'.inner with
      | none => none
      | some (.error r') => some (.error r')
      | some (.ok (msg, r')) =>
        match runAll fuel ⟨r', m'.first⟩ with
        | none => none
        | some (.error rf) => some (.error rf)
        | some (.ok (msgs, rf)) => some (.ok (msg :: msgs, rf))

/-- Reading one message to completion in chunks of `n` bytes: repeat
`read r n` until it returns no bytes, concatenating what is returned. -/
def readMsg : Nat → Nat → MessageBoundaryReader →
    Option (Except MessageBoundaryReader (List Nat × MessageBoundaryReader))
  | 0, _, _ => none
  | fuel + 1, n, r =>
    match read r n with
    | .error r' => some (.error r')
    | .ok (bs, r') =>
      if bs.length = 0 then some (.ok ([], r'))
      else
        match readMsg fuel n r' with
        | none => none
        | some (.error r'') => some (.error r'')
        | some (.ok (rest, r'')) => some (.ok (bs ++ rest, r''))

/-- The bytes delivered by a completed chunked read of one message
(`none` when the fuel ran out or an `io` error occurred). -/
def msgVia (fuel n : Nat) (r : MessageBoundaryReader) : Option (List Nat) :=
  match readMsg fuel n r with
  | some (.ok (bs, _)) => some bs
  | _ => none

/-- Reader state after `fill_buf` (the state left behind both on success
and on error, as the Rust method mutates in place). -/
def fbState (r : MessageBoundaryReader) : MessageBoundaryReader :=
  match fill_buf r with
  | .ok (_, r') => r'
  | .error r' => r'

/-- Bytes made available by `fill_buf` (empty on error). -/
def fbBytes (r : MessageBoundaryReader) : List Nat :=
  match fill_buf r with
  | .ok (w, _) => w
  | .error _ => []

/-- Whether `fill_buf` fails with an `io` error. -/
def fbErr (r : MessageBoundaryReader) : Bool :=
  match fill_buf r with
  | .ok _ => false
  | .error _ => true

/-- Reader state after `read`. -/
def readState (r : MessageBoundaryReader) (n : Nat) : MessageBoundaryReader :=
  match read r n with
  | .ok (_, r') => r'
  | .error r' => r'

/-- Bytes returned by `read` (empty on error). -/
def readBytesOf (r : MessageBoundaryReader) (n : Nat) : List Nat :=
  match read r n with
  | .ok (bs, _) => bs
  | .error _ => []

/-- Whether `read` fails with an `io` error. -/
def readErr (r : MessageBoundaryReader) (n : Nat) : Bool :=
  match read r n with
  | .ok _ => false
  | .error _ => true

/-- The boolean produced by `eof` (false on error). -/
def eofBool (r : MessageBoundaryReader) : Bool :=
  match eof r with
  | .ok (b, _) => b
  | .error _ => false

/-- Reader state after `eof`. -/
def eofState (r : MessageBoundaryReader) : MessageBoundaryReader :=
  match eof r with
  | .ok (_, r') => r'
  | .error r' => r'

/-- Reader state after `skip_message` (unchanged on fuel exhaustion). -/
def skipState (fuel : Nat) (r : MessageBoundaryReader) : MessageBoundaryReader :=
  match skip_message fuel r with
  | some (.ok r') => r'
  | some (.error r') => r'
  | none => r

/-- The offset chain `0 ≤ ready_start ≤ ready_end ≤ held_back ≤
buffer_end ≤ capacity` (spec section 3). -/
def wf (r : MessageBoundaryReader) : Prop :=
  r.ready_start ≤ r.ready_end ∧ r.ready_end ≤ r.held_back ∧
    r.held_back ≤ r.buffer_end ∧ r.buffer_end ≤ r.cap

instance (r : MessageBoundaryReader) : Decidable (wf r) := by
  unfold wf; infer_instance

/-- Relation of `next_message_start` to the other offsets: when a
boundary is pending it sits exactly at `ready_end` and the six marker
bytes fit below `held_back`. -/
def wfNM (r : MessageBoundaryReader) : Prop :=
  r.next_message_start = none ∨
    (r.next_message_start = some r.ready_end ∧ r.ready_end + 5 ≤ r.held_back)

instance (r : MessageBoundaryReader) : Decidable (wfNM r) := by
  unfold wfNM; infer_instance

/-- Reachable-state interface used by the functional theorems: the
offset chain, the boundary relation, a plain slice source, the capacity
from `new` (only `6 ≤ cap` is used), and the held-back window being at
most the last five bytes. -/
def good (r : MessageBoundaryReader) : Prop :=
  wf r ∧ wfNM r ∧ r.src.plan = [] ∧ 6 ≤ r.cap ∧ r.buffer_end ≤ r.held_back + 5

instance (r : MessageBoundaryReader) : Decidable (good r) := by
  unfold good; infer_instance

/-- The state in which the source is truly exhausted: the buffer holds
no unread bytes, the source has none left, and no boundary is pending. -/
def eofSt (r : MessageBoundaryReader) : Prop :=
  r.ready_start = r.ready_end ∧ r.ready_end = r.held_back ∧
    r.held_back = r.buffer_end ∧ r.src.data = [] ∧ r.next_message_start = none

instance (r : MessageBoundaryReader) : Decidable (eofSt r) := by
  unfold eofSt; infer_instance

/-- Unread payload still ahead of the caller: unconsumed buffered bytes
plus bytes not yet pulled from the source. -/
def pending (r : MessageBoundaryReader) : Nat :=
  r.src.data.length + (r.buffer_end - r.ready_start)

/-- The final state of the read loop, on success or on error. -/
def rlOut : Except (Src × (Nat → Nat) × Nat) (Src × (Nat → Nat) × Nat) →
    Src × (Nat → Nat) × Nat
  | .ok x => x
  | .error x => x

/-- The records yielded by a terminating, error-free run of the consumer
loop. -/
def runMsgs (o : Option (Except MessageBoundaryReader
    (List (List Nat) × MessageBoundaryReader))) : Option (List (List Nat)) :=
  match o with
  | some (.ok (msgs, _)) => some msgs
  | _ => none

/-- The ghost count of removed escape bytes after a terminating,
error-free run of the consumer loop. -/
def runRemoved (o : Option (Except MessageBoundaryReader
    (List (List Nat) × MessageBoundaryReader))) : Option Nat :=
  match o with
  | some (.ok (_, rf)) => some rf.removed
  | _ => none

/-- `"From line1\nFrom line2"`, the input of the boundary-precision
property. -/
def c1input : List Nat :=
  [70, 114, 111, 109, 32, 108, 105, 110, 101, 49, 10,
   70, 114, 111, 109, 32, 108, 105, 110, 101, 50]

/-- Plain slice source over `c1input`. -/
def c1src : Src := ⟨c1input, []⟩

/-- Fresh reader over `c1input`. -/
def c1r0 : MessageBoundaryReader := MessageBoundaryReader.new c1src

/-- State after one big read of the first message. -/
def c1r1 : MessageBoundaryReader := readState c1r0 100

/-- State after `reset_eom`. -/
def c1r2 : MessageBoundaryReader := reset_eom c1r1

/-- State after one big read of the second message. -/
def c1r3 : MessageBoundaryReader := readState c1r2 100

/-- `"x\n>From a\n>From b"`: two escaped lines landing in one ready
window. -/
def c2src : Src :=
  ⟨[120, 10, 62, 70, 114, 111, 109, 32, 97, 10, 62, 70, 114, 111, 109, 32, 98], []⟩

/-- A concrete well-formed reader state whose ready window holds
`"a\n>>>From bc\n"` followed by one held-back region, used to exercise
the escape-removal step. -/
def c2buf : List Nat :=
  [97, 10, 62, 62, 62, 70, 114, 111, 109, 32, 98, 99, 10, 100, 101, 102, 103, 104, 105, 106]

/-- Reader state built from `c2buf`. -/
def c2state : MessageBoundaryReader :=
  { src := ⟨[], []⟩, cap := 30, buffer := fun i => c2buf.getD i 0, buffer_end := 20,
    ready_start := 0, ready_end := 17, held_back := 18,
    next_message_start := none, removed := 0 }

/-- `"a\n>x\n>From b"`: the full escape pattern `"\n>From "` sits at
offset 4, behind the earlier non-matching `"\n>"` occurrence at offset
1, so the reader's single search finds the non-matching occurrence and
removes nothing. -/
def c2bsrc : Src :=
  ⟨[97, 10, 62, 120, 10, 62, 70, 114, 111, 109, 32, 98], []⟩

/-- `"abcdef\nx"`: an input whose newline lands in the final five bytes,
leaving two held-back bytes after the first window. -/
def c9src : Src := ⟨[97, 98, 99, 100, 101, 102, 10, 120], []⟩

/-- State after reading the six ready bytes of `c9src`. -/
def c9a : MessageBoundaryReader := readState (MessageBoundaryReader.new c9src) 6

/-- State after the subsequent `fill_buf`, whose refill rebases
`ready_start` from 6 back to 0. -/
def c9b : MessageBoundaryReader := fbState c9a

/-- Same bytes as `c9src` but the third source read fails. -/
def c8src : Src := ⟨[97, 98, 99, 100, 101, 102, 10, 120], [some 9999, some 9999, none]⟩

/-- State after reading the six ready bytes of `c8src`; the next
`fill_buf` triggers a refill whose source read fails. -/
def c8a : MessageBoundaryReader := readState (MessageBoundaryReader.new c8src) 6

/-- `"a\nFrom b"`: one boundary, two messages of 2 and 6 bytes. -/
def c5src : Src := ⟨[97, 10, 70, 114, 111, 109, 32, 98], []⟩

/-- A fresh reader over `c1input`, the state used to compare chunked
reads. -/
def c4r : MessageBoundaryReader := MessageBoundaryReader.new c1src

/-- The bytes of the first message of `c1input`. -/
def c4out : List Nat := [70, 114, 111, 109, 32, 108, 105, 110, 101, 49, 10]

/-- The reader state right after the first `fill_buf` over `c1input`,
where the boundary at offset 11 is pending. -/
def c3state : MessageBoundaryReader := fbState c1r0

/-- A tiny source used to instantiate the read-contract theorem. -/
def c7src : Src := ⟨[97, 98, 99], []⟩

/-- Fresh reader over `c7src`. -/
def c7r : MessageBoundaryReader := MessageBoundaryReader.new c7src

/-- `">>From a"` as a stream beginning: escape-lookalike with no
preceding line break. -/
def c10src : Src := ⟨[62, 62, 70, 114, 111, 109, 32, 97], []⟩

theorem extract_length (b : Nat → Nat) (s e : Nat) : (extract b s e).length = e - s := by
  simp [extract]

theorem extract_getElem (b : Nat → Nat) (s e i : Nat) (h : i < (extract b s e).length) :
    (extract b s e)[i] = b (s + i) := by
  simp [extract]

theorem extract_getD (b : Nat → Nat) (s e i : Nat) (h : i < e - s) :
    (extract b s e).getD i 0 = b (s + i) := by
  rw [List.getD_eq_getElem, extract_getElem]
  rw [extract_length]; exact h

theorem extract_empty (b : Nat → Nat) (s e : Nat) (h : e ≤ s) : extract b s e = [] := by
  have : e - s = 0 := by omega
  simp [extract, this]

theorem extract_ne_nil (b : Nat → Nat) (s e : Nat) (h : s < e) : extract b s e ≠ [] := by
  intro hc
  have := congrArg List.length hc
  rw [extract_length] at this
  simp at this
  omega

theorem extract_congr (b b' : Nat → Nat) (s e : Nat)
    (h : ∀ i, s ≤ i → i < e → b i = b' i) : extract b s e = extract b' s e := by
  apply List.ext_getElem
  · rw [extract_length, extract_length]
  · intro i h1 h2
    rw [extract_getElem b s e i h1, extract_getElem b' s e i h2]
    exact h (s + i) (by omega) (by rw [extract_length] at h1; omega)

theorem extract_split (b : Nat → Nat) (s m e : Nat) (h1 : s ≤ m) (h2 : m ≤ e) :
    extract b s e = extract b s m ++ extract b m e := by
  apply List.ext_getElem
  · simp [extract_length]; omega
  · intro i hi hj
    rw [extract_getElem]
    rcases Nat.lt_or_ge i (m - s) with hlt | hge
    · rw [List.getElem_append_left (by rw [extract_length]; exact hlt)]
      rw [extract_getElem]
    · rw [List.getElem_append_right (by rw [extract_length]; exact hge)]
      rw [extract_getElem]
      congr 1
      rw [extract_length]
      omega

theorem extract_take (b : Nat → Nat) (s e c : Nat) :
    (extract b s e).take c = extract b s (min e (s + c)) := by
  apply List.ext_getElem
  · simp [extract_length]; omega
  · intro i hi hj
    rw [List.getElem_take, extract_getElem, extract_getElem]

theorem extract_drop (b : Nat → Nat) (s e c : Nat) :
    (extract b s e).drop c = extract b (s + c) e := by
  apply List.ext_getElem
  · simp [extract_length]; omega
  · intro i hi hj
    rw [List.getElem_drop, extract_getElem, extract_getElem]
    congr 1
    omega

theorem take_min_length (l : List Nat) (n : Nat) : l.take (min l.length n) = l.take n := by
  rcases Nat.le_total l.length n with h | h
  · rw [Nat.min_eq_left h, List.take_of_length_le (Nat.le_refl _), List.take_of_length_le h]
  · rw [Nat.min_eq_right h]

theorem writeBytes_lo (b : Nat → Nat) (s : Nat) (bs : List Nat) (i : Nat) (h : i < s) :
    writeBytes b s bs i = b i := by
  simp only [writeBytes]
  rw [if_neg]
  omega

theorem writeBytes_hi (b : Nat → Nat) (s : Nat) (bs : List Nat) (i : Nat)
    (h : s + bs.length ≤ i) : writeBytes b s bs i = b i := by
  simp only [writeBytes]
  rw [if_neg]
  omega

theorem writeBytes_mid (b : Nat → Nat) (s : Nat) (bs : List Nat) (i : Nat)
    (h1 : s ≤ i) (h2 : i < s + bs.length) : writeBytes b s bs i = bs.getD (i - s) 0 := by
  simp only [writeBytes]
  rw [if_pos ⟨h1, h2⟩]

theorem copyLeft_lo (b : Nat → Nat) (src len i : Nat) (h : i < len) :
    copyLeft b src len i = b (src + i) := by
  simp only [copyLeft]
  rw [if_pos h]

theorem copyLeft_hi (b : Nat → Nat) (src len i : Nat) (h : len ≤ i) :
    copyLeft b src len i = b i := by
  simp only [copyLeft]
  rw [if_neg]
  omega

theorem removeAt1_lo (b : Nat → Nat) (idx cap i : Nat) (h : i < idx) :
    removeAt1 b idx cap i = b i := by
  simp only [removeAt1]
  rw [if_pos h]

theorem removeAt1_mid (b : Nat → Nat) (idx cap i : Nat) (h1 : idx ≤ i) (h2 : i + 1 < cap) :
    removeAt1 b idx cap i = b (i + 1) := by
  simp only [removeAt1]
  rw [if_neg (by omega), if_pos h2]

theorem leadsList_length {p l : List Nat} (h : leadsList p l = true) : p.length ≤ l.length := by
  induction p generalizing l with
  | nil => simp
  | cons a pa ih =>
    cases l with
    | nil => simp [leadsList] at h
    | cons x lx =>
      simp only [leadsList, Bool.and_eq_true] at h
      simpa using ih h.2

theorem leadsList_getD {p l : List Nat} (h : leadsList p l = true) :
    ∀ i, i < p.length → l.getD i 0 = p.getD i 0 := by
  induction p generalizing l with
  | nil => intro i hi; simp at hi
  | cons a pa ih =>
    cases l with
    | nil => simp [leadsList] at h
    | cons x lx =>
      simp only [leadsList, Bool.and_eq_true, beq_iff_eq] at h
      intro i hi
      cases i with
      | zero => simp [h.1]
      | succ j =>
        simp only [List.getD_cons_succ]
        exact ih h.2 j (by simpa using hi)

theorem findSub_some {hay pat : List Nat} {i : Nat} (h : findSub hay pat = some i) :
    i + pat.length ≤ hay.length ∧ leadsList pat (hay.drop i) = true := by
  induction hay generalizing i with
  | nil =>
    simp only [findSub] at h
    by_cases hp : leadsList pat [] = true
    · rw [if_pos hp] at h
      cases h
      exact ⟨by simpa using leadsList_length hp, by simpa using hp⟩
    · rw [if_neg hp] at h
      cases h
  | cons a t ih =>
    simp only [findSub] at h
    by_cases hp : leadsList pat (a :: t) = true
    · rw [if_pos hp] at h
      cases h
      exact ⟨by simpa using leadsList_length hp, by simpa using hp⟩
    · rw [if_neg hp] at h
      cases hfs : findSub t pat with
      | none => rw [hfs] at h; simp at h
      | some j =>
        rw [hfs] at h
        simp at h
        subst h
        obtain ⟨h1, h2⟩ := ih hfs
        constructor
        · simp only [List.length_cons]
          omega
        · simpa using h2

theorem findByte_some {l : List Nat} {x i : Nat} (h : findByte l x = some i) :
    i < l.length ∧ l.getD i 0 = x := by
  induction l generalizing i with
  | nil => simp [findByte] at h
  | cons a t ih =>
    simp only [findByte] at h
    by_cases ha : a = x
    · rw [if_pos ha] at h
      cases h
      simpa using ha
    · rw [if_neg ha] at h
      cases hfs : findByte t x with
      | none => rw [hfs] at h; simp at h
      | some j =>
        rw [hfs] at h
        simp at h
        subst h
        obtain ⟨h1, h2⟩ := ih hfs
        constructor
        · simp only [List.length_cons]
          omega
        · simpa using h2

theorem findSub_extract {b : Nat → Nat} {s e : Nat} {pat : List Nat} {i : Nat}
    (hp : pat ≠ []) (h : findSub (extract b s e) pat = some i) :
    s + i + pat.length ≤ e ∧ ∀ j, j < pat.length → b (s + i + j) = pat.getD j 0 := by
  obtain ⟨h1, h2⟩ := findSub_some h
  rw [extract_length] at h1
  have hplen : 1 ≤ pat.length := by
    cases pat with
    | nil => exact absurd rfl hp
    | cons _ _ => simp
  refine ⟨by omega, ?_⟩
  intro j hj
  have h3 := leadsList_getD h2 j hj
  rw [extract_drop] at h3
  rw [extract_getD b (s + i) e j (by omega)] at h3
  exact h3
theorem getD_take (l : List Nat) (n j : Nat) (h : j < n) (h2 : j < l.length) :
    (l.take n).getD j 0 = l.getD j 0 := by
  have h3 : j < (l.take n).length := by simp; omega
  rw [List.getD_eq_getElem _ _ h3, List.getD_eq_getElem _ _ h2, List.getElem_take]

theorem getD_drop (l : List Nat) (n j : Nat) (h : n + j < l.length) :
    (l.drop n).getD j 0 = l.getD (n + j) 0 := by
  have h3 : j < (l.drop n).length := by simp; omega
  rw [List.getD_eq_getElem _ _ h3, List.getD_eq_getElem _ _ h, List.getElem_drop]

theorem srcRead_ok {s : Src} {n : Nat} {bs : List Nat} {s' : Src}
    (h : Src.read s n = .ok (bs, s')) :
    bs.length ≤ n ∧ s'.data.length + bs.length = s.data.length := by
  unfold Src.read at h
  cases hp : s.plan with
  | nil =>
    rw [hp] at h
    simp only [Except.ok.injEq, Prod.mk.injEq] at h
    obtain ⟨h1, h2⟩ := h
    subst h1; subst h2
    rw [List.length_take, List.length_drop]
    omega
  | cons o rest =>
    cases o with
    | none => rw [hp] at h; simp at h
    | some k =>
      rw [hp] at h
      simp only [Except.ok.injEq, Prod.mk.injEq] at h
      obtain ⟨h1, h2⟩ := h
      subst h1; subst h2
      rw [List.length_take, List.length_drop]
      omega

theorem srcRead_plan_nil {s : Src} {n : Nat} (h : s.plan = []) :
    Src.read s n = .ok (s.data.take n, ⟨s.data.drop n, []⟩) := by
  unfold Src.read
  rw [h]

theorem readLoop_succ (f : Nat) (s : Src) (b : Nat → Nat) (be cap : Nat) :
    readLoop (f + 1) s b be cap =
      if be < cap then
        match Src.read s (cap - be) with
        | .error s' => .error (s', b, be)
        | .ok (bs, s') =>
          if bs.length = 0 then .ok (s', writeBytes b be bs, be + bs.length)
          else readLoop f s' (writeBytes b be bs) (be + bs.length) cap
      else .ok (s, b, be) := rfl

theorem readLoop_be_bounds : ∀ fuel s b be cap, be ≤ cap →
    be ≤ (rlOut (readLoop fuel s b be cap)).2.2 ∧
      (rlOut (readLoop fuel s b be cap)).2.2 ≤ cap := by
  intro fuel
  induction fuel with
  | zero => intro s b be cap h; simp [readLoop, rlOut]; omega
  | succ f ih =>
    intro s b be cap h
    rw [readLoop_succ]
    by_cases hbe : be < cap
    · rw [if_pos hbe]
      cases hr : Src.read s (cap - be) with
      | error s' => dsimp only [rlOut]; omega
      | ok p =>
        obtain ⟨bs, s'⟩ := p
        dsimp only
        obtain ⟨hlen, _⟩ := srcRead_ok hr
        by_cases hz : bs.length = 0
        · rw [if_pos hz]
          dsimp only [rlOut]
          omega
        · rw [if_neg hz]
          have := ih s' (writeBytes b be bs) (be + bs.length) cap (by omega)
          omega
    · rw [if_neg hbe]
      dsimp only [rlOut]
      omega

theorem readLoop_plan_nil : ∀ fuel s b be cap, s.plan = [] → be ≤ cap → cap ≤ fuel + be →
    ∃ b' be', readLoop fuel s b be cap = .ok (⟨s.data.drop (be' - be), []⟩, b', be') ∧
      be' = min cap (be + s.data.length) ∧
      (∀ i, i < be → b' i = b i) ∧
      (∀ i, be ≤ i → i < be' → b' i = s.data.getD (i - be) 0) := by
  intro fuel
  induction fuel with
  | zero =>
    intro s b be cap hp hbe hcap
    have hbeq : be = cap := by omega
    refine ⟨b, be, ?_, by omega, fun i _ => rfl, fun i h1 h2 => by omega⟩
    show Except.ok (s, b, be) = _
    rw [Nat.sub_self, List.drop_zero]
    cases s
    simp_all
  | succ f ih =>
    intro s b be cap hp hbe hcap
    rw [readLoop_succ]
    by_cases hlt : be < cap
    · rw [if_pos hlt, srcRead_plan_nil hp]
      dsimp only
      by_cases hz : (s.data.take (cap - be)).length = 0
      · rw [if_pos hz]
        have hdata : s.data = [] := by
          rcases List.take_eq_nil_iff.mp (List.eq_nil_of_length_eq_zero hz) with h | h
          · omega
          · exact h
        refine ⟨writeBytes b be (s.data.take (cap - be)), be + (s.data.take (cap - be)).length,
          ?_, ?_, ?_, fun i h1 h2 => by omega⟩
        · rw [hdata]
          simp
        · rw [hdata]
          simp
          omega
        · intro i hi
          rw [writeBytes_lo b be _ i hi]
      · rw [if_neg hz]
        have hbslen : (s.data.take (cap - be)).length = min (cap - be) s.data.length := by
          rw [List.length_take]
        obtain ⟨b', be', heq, hbe', hframe, hcontent⟩ :=
          ih ⟨s.data.drop (cap - be), []⟩ (writeBytes b be (s.data.take (cap - be)))
            (be + (s.data.take (cap - be)).length) cap rfl (by omega) (by omega)
        refine ⟨b', be', ?_, ?_, ?_, ?_⟩
        · rw [heq]
          have hdd : (s.data.drop (cap - be)).drop (be' - (be + (s.data.take (cap - be)).length)) =
              s.data.drop (be' - be) := by
            rw [List.drop_drop]
            simp only [List.length_drop] at hbe'
            rcases Nat.le_total (cap - be) s.data.length with hds | hds
            · congr 1
              omega
            · rw [List.drop_eq_nil_of_le (by omega), List.drop_eq_nil_of_le (by omega)]
          simp only [hdd]
        · simp only [List.length_drop] at hbe'
          omega
        · intro i hi
          rw [hframe i (by omega), writeBytes_lo b be _ i hi]
        · intro i h1 h2
          rcases Nat.lt_or_ge i (be + (s.data.take (cap - be)).length) with hcase | hcase
          · rw [hframe i hcase, writeBytes_mid b be _ i h1 hcase]
            exact getD_take s.data (cap - be) (i - be) (by omega) (by omega)
          · rw [hcontent i hcase h2]
            simp only [List.length_drop] at hbe'
            have hfull : (s.data.take (cap - be)).length = cap - be := by omega
            rw [getD_drop s.data (cap - be) (i - (be + (s.data.take (cap - be)).length)) (by omega)]
            congr 1
            omega
    · have hbeq : be = cap := by omega
      rw [if_neg hlt]
      refine ⟨b, be, ?_, by omega, fun i _ => rfl, fun i h1 h2 => by omega⟩
      rw [Nat.sub_self, List.drop_zero]
      cases s
      simp_all

theorem heldBackAfter_le (b : Nat → Nat) (be : Nat) : heldBackAfter b be ≤ be := by
  unfold heldBackAfter
  by_cases h6 : 6 ≤ be
  · rw [if_pos h6]
    cases hfb : findByte (extract b (be - 5) be) 10 with
    | some i =>
      have := (findByte_some hfb).1
      rw [extract_length] at this
      dsimp only
      omega
    | none => dsimp only; omega
  · rw [if_neg h6]

theorem heldBackAfter_ge (b : Nat → Nat) (be : Nat) : be ≤ heldBackAfter b be + 5 := by
  unfold heldBackAfter
  by_cases h6 : 6 ≤ be
  · rw [if_pos h6]
    cases hfb : findByte (extract b (be - 5) be) 10 with
    | some i => dsimp only; omega
    | none => dsimp only; omega
  · rw [if_neg h6]
    omega

theorem heldBackAfter_pos (b : Nat → Nat) (be : Nat) (h : 0 < be) :
    0 < heldBackAfter b be := by
  unfold heldBackAfter
  by_cases h6 : 6 ≤ be
  · rw [if_pos h6]
    cases hfb : findByte (extract b (be - 5) be) 10 with
    | some i => dsimp only; omega
    | none => dsimp only; omega
  · rw [if_neg h6]
    omega

theorem heldBackAfter_byte (b : Nat → Nat) (be : Nat) (h : heldBackAfter b be < be) :
    b (heldBackAfter b be) = 10 := by
  unfold heldBackAfter at h ⊢
  by_cases h6 : 6 ≤ be
  · rw [if_pos h6] at h ⊢
    cases hfb : findByte (extract b (be - 5) be) 10 with
    | some i =>
      rw [hfb] at h
      try dsimp only at h ⊢
      obtain ⟨hi, hbyte⟩ := findByte_some hfb
      rw [extract_length] at hi
      rw [extract_getD b (be - 5) be i (by omega)] at hbyte
      exact hbyte
    | none =>
      rw [hfb] at h
      try dsimp only at h
      omega
  · rw [if_neg h6] at h
    omega

theorem refill_eq (r : MessageBoundaryReader) :
    refill r =
      match readLoop (r.cap + 1) r.src
          (copyLeft r.buffer r.held_back (r.buffer_end - r.held_back))
          (r.buffer_end - r.held_back) r.cap with
      | .error (s', b', be') =>
        .error { r with src := s', buffer := b', ready_start := 0, ready_end := 0,
                        buffer_end := be', held_back := be' }
      | .ok (s', b', be') =>
        .ok { r with src := s', buffer := b', ready_start := 0, ready_end := 0,
                     buffer_end := be', held_back := heldBackAfter b' be' } := rfl

theorem refill_error {r r' : MessageBoundaryReader} (h : refill r = .error r') :
    r'.ready_start = 0 ∧ r'.ready_end = 0 ∧ r'.held_back = r'.buffer_end ∧
      r'.next_message_start = r.next_message_start ∧ r'.cap = r.cap ∧
      r'.removed = r.removed ∧
      (r.held_back ≤ r.buffer_end → r.buffer_end ≤ r.cap → r'.buffer_end ≤ r.cap) := by
  rw [refill_eq] at h
  cases hrl : readLoop (r.cap + 1) r.src
      (copyLeft r.buffer r.held_back (r.buffer_end - r.held_back))
      (r.buffer_end - r.held_back) r.cap with
  | error p =>
    obtain ⟨s', b', be'⟩ := p
    rw [hrl] at h
    dsimp only at h
    cases h
    refine ⟨rfl, rfl, rfl, rfl, rfl, rfl, ?_⟩
    intro h1 h2
    have := readLoop_be_bounds (r.cap + 1) r.src
      (copyLeft r.buffer r.held_back (r.buffer_end - r.held_back))
      (r.buffer_end - r.held_back) r.cap (by omega)
    rw [hrl] at this
    dsimp only [rlOut] at this
    exact this.2
  | ok p =>
    obtain ⟨s', b', be'⟩ := p
    rw [hrl] at h
    dsimp only at h
    cases h

theorem refill_ok {r r1 : MessageBoundaryReader} (h : refill r = .ok r1) :
    r1.ready_start = 0 ∧ r1.ready_end = 0 ∧
      r1.next_message_start = r.next_message_start ∧ r1.cap = r.cap ∧
      r1.removed = r.removed ∧
      r1.held_back ≤ r1.buffer_end ∧ r1.buffer_end ≤ r1.held_back + 5 ∧
      (0 < r1.buffer_end → 0 < r1.held_back) ∧
      (r1.held_back < r1.buffer_end → r1.buffer r1.held_back = 10) ∧
      (r.held_back ≤ r.buffer_end → r.buffer_end ≤ r.cap → r1.buffer_end ≤ r.cap) := by
  rw [refill_eq] at h
  cases hrl : readLoop (r.cap + 1) r.src
      (copyLeft r.buffer r.held_back (r.buffer_end - r.held_back))
      (r.buffer_end - r.held_back) r.cap with
  | error p =>
    obtain ⟨s', b', be'⟩ := p
    rw [hrl] at h
    dsimp only at h
    cases h
  | ok p =>
    obtain ⟨s', b', be'⟩ := p
    rw [hrl] at h
    dsimp only at h
    cases h
    refine ⟨rfl, rfl, rfl, rfl, rfl, ?_, ?_, ?_, ?_, ?_⟩
    · exact heldBackAfter_le b' be'
    · exact heldBackAfter_ge b' be'
    · exact heldBackAfter_pos b' be'
    · exact heldBackAfter_byte b' be'
    · intro h1 h2
      have := readLoop_be_bounds (r.cap + 1) r.src
        (copyLeft r.buffer r.held_back (r.buffer_end - r.held_back))
        (r.buffer_end - r.held_back) r.cap (by omega)
      rw [hrl] at this
      dsimp only [rlOut] at this
      exact this.2

theorem refill_plan_nil {r : MessageBoundaryReader} (hp : r.src.plan = [])
    (hhb : r.held_back ≤ r.buffer_end) (hbe : r.buffer_end ≤ r.cap) :
    ∃ r1, refill r = .ok r1 ∧
      r1.buffer_end = min r.cap ((r.buffer_end - r.held_back) + r.src.data.length) ∧
      r1.src.plan = [] ∧
      r1.src.data.length + r1.buffer_end =
        r.src.data.length + (r.buffer_end - r.held_back) ∧
      (r1.buffer_end < r.cap → r1.src.data = []) ∧
      (∀ i, i < r.buffer_end - r.held_back → r1.buffer i = r.buffer (r.held_back + i)) ∧
      (∀ i, r.buffer_end - r.held_back ≤ i → i < r1.buffer_end →
        r1.buffer i = r.src.data.getD (i - (r.buffer_end - r.held_back)) 0) := by
  obtain ⟨b', be', heq, hbe', hframe, hcontent⟩ :=
    readLoop_plan_nil (r.cap + 1) r.src
      (copyLeft r.buffer r.held_back (r.buffer_end - r.held_back))
      (r.buffer_end - r.held_back) r.cap hp (by omega) (by omega)
  have hrefill := refill_eq r
  rw [heq] at hrefill
  dsimp only at hrefill
  refine ⟨_, hrefill, ?_, rfl, ?_, ?_, ?_, ?_⟩
  · exact hbe'
  · dsimp only
    simp only [List.length_drop]
    omega
  · intro hlt
    dsimp only at hlt ⊢
    have hfull : be' - (r.buffer_end - r.held_back) = r.src.data.length := by omega
    rw [hfull, List.drop_length]
  · intro i hi
    dsimp only
    rw [hframe i hi, copyLeft_lo r.buffer r.held_back _ i hi]
  · intro i h1 h2
    dsimp only at h2 ⊢
    exact hcontent i h1 h2

theorem marker_scan_frame (r : MessageBoundaryReader) :
    (marker_scan r).ready_start = r.ready_start ∧ (marker_scan r).buffer = r.buffer ∧
      (marker_scan r).held_back = r.held_back ∧ (marker_scan r).buffer_end = r.buffer_end ∧
      (marker_scan r).cap = r.cap ∧ (marker_scan r).src = r.src ∧
      (marker_scan r).removed = r.removed := by
  unfold marker_scan
  cases findSub (extract r.buffer r.ready_start r.held_back) MAGIC_WORD with
  | none => exact ⟨rfl, rfl, rfl, rfl, rfl, rfl, rfl⟩
  | some i => exact ⟨rfl, rfl, rfl, rfl, rfl, rfl, rfl⟩

theorem marker_scan_main (r : MessageBoundaryReader) :
    (marker_scan r = { r with ready_end := r.held_back }) ∨
      ((marker_scan r).next_message_start = some (marker_scan r).ready_end ∧
        r.ready_start < (marker_scan r).ready_end ∧
        (marker_scan r).ready_end + 5 ≤ r.held_back ∧
        r.buffer ((marker_scan r).ready_end - 1) = 10) := by
  unfold marker_scan
  cases hfs : findSub (extract r.buffer r.ready_start r.held_back) MAGIC_WORD with
  | none => exact Or.inl rfl
  | some i =>
    right
    obtain ⟨hbound, hbytes⟩ := findSub_extract (by decide) hfs
    have hlen : MAGIC_WORD.length = 6 := by decide
    rw [hlen] at hbound
    have hb0 := hbytes 0 (by decide)
    refine ⟨rfl, by dsimp only; omega, by dsimp only; omega, ?_⟩
    dsimp only
    have hidx : r.ready_start + i + 1 - 1 = r.ready_start + i + 0 := by omega
    rw [hidx, hb0]
    decide

theorem escape_step_cases (r : MessageBoundaryReader) :
    escape_step r = r ∨
      ∃ off fo, findSub (extract r.buffer r.ready_start r.ready_end) newlineGt = some off ∧
        findSub (extract r.buffer (r.ready_start + off + 1) r.ready_end) fromWord = some fo ∧
        (extract r.buffer (r.ready_start + off + 1) (r.ready_start + off + 1 + fo)).all
          (fun x => x == 62) = true ∧
        r.ready_start + off + 2 ≤ r.ready_end ∧
        r.ready_start + off + 1 + fo + 5 ≤ r.ready_end ∧
        r.buffer (r.ready_start + off) = 10 ∧
        r.buffer (r.ready_start + off + 1) = 62 ∧
        escape_step r =
          { r with
            buffer := removeAt1 r.buffer (r.ready_start + off + 1) r.cap,
            ready_end := r.ready_end - 1,
            held_back := r.held_back - 1,
            buffer_end := r.buffer_end - 1,
            next_message_start := r.next_message_start.map (fun x => x - 1),
            removed := r.removed + 1 } := by
  unfold escape_step
  cases hfs : findSub (extract r.buffer r.ready_start r.ready_end) newlineGt with
  | none => exact Or.inl rfl
  | some off =>
    dsimp only
    obtain ⟨hbound1, hbytes1⟩ := findSub_extract (by decide) hfs
    have hlen1 : newlineGt.length = 2 := by decide
    rw [hlen1] at hbound1
    cases hfw : findSub (extract r.buffer (r.ready_start + off + 1) r.ready_end) fromWord with
    | none => exact Or.inl rfl
    | some fo =>
      dsimp only
      obtain ⟨hbound2, hbytes2⟩ := findSub_extract (by decide) hfw
      have hlen2 : fromWord.length = 5 := by decide
      rw [hlen2] at hbound2
      by_cases hall : (extract r.buffer (r.ready_start + off + 1)
          (r.ready_start + off + 1 + fo)).all (fun x => x == 62) = true
      · right
        refine ⟨off, fo, rfl, hfw, hall, by omega, by omega, ?_, ?_, ?_⟩
        · have hb := hbytes1 0 (by decide)
          simpa [newlineGt] using hb
        · have hb := hbytes1 1 (by decide)
          simpa [newlineGt] using hb
        · rw [if_pos hall]
      · left
        rw [if_neg hall]

theorem escape_step_frame (r : MessageBoundaryReader) :
    (escape_step r).ready_start = r.ready_start ∧ (escape_step r).cap = r.cap ∧
      (escape_step r).src = r.src := by
  rcases escape_step_cases r with h | ⟨off, fo, _, _, _, _, _, _, _, h⟩ <;> rw [h] <;>
    exact ⟨rfl, rfl, rfl⟩

theorem escape_step_of_empty {r : MessageBoundaryReader}
    (h : r.ready_start = r.ready_end) : escape_step r = r := by
  rcases escape_step_cases r with he | ⟨off, fo, _, _, _, h4, _, _, _, _⟩
  · exact he
  · omega

theorem escape_step_inv (r : MessageBoundaryReader) (hw : wf r) :
    wf (escape_step r) ∧
      (escape_step r).ready_start = r.ready_start ∧
      (escape_step r).cap = r.cap ∧ (escape_step r).src = r.src ∧
      r.removed ≤ (escape_step r).removed ∧
      (escape_step r).src.data.length +
          ((escape_step r).buffer_end - (escape_step r).ready_start) +
          (escape_step r).removed =
        r.src.data.length + (r.buffer_end - r.ready_start) + r.removed ∧
      (r.ready_start < r.ready_end → r.ready_start < (escape_step r).ready_end) ∧
      (wfNM r → wfNM (escape_step r)) ∧
      (r.buffer_end ≤ r.held_back + 5 →
        (escape_step r).buffer_end ≤ (escape_step r).held_back + 5) := by
  obtain ⟨w1, w2, w3, w4⟩ := hw
  rcases escape_step_cases r with h | ⟨off, fo, _, _, _, h4, h5, _, _, h⟩
  · rw [h]
    exact ⟨⟨w1, w2, w3, w4⟩, rfl, rfl, rfl, Nat.le_refl _, rfl, fun hlt => hlt,
      fun hnm => hnm, fun hb5 => hb5⟩
  · rw [h]
    refine ⟨⟨by dsimp only; omega, by dsimp only; omega, by dsimp only; omega,
      by dsimp only; omega⟩, rfl, rfl, rfl, by dsimp only; omega, by dsimp only; omega,
      by dsimp only; omega, ?_, by dsimp only; omega⟩
    intro hnm
    rcases hnm with h0 | ⟨hsome, hle⟩
    · rw [h0]
      exact Or.inl rfl
    · rw [hsome]
      exact Or.inr ⟨rfl, by dsimp only; omega⟩

theorem fill_buf_window_ne {r : MessageBoundaryReader} (h : r.ready_start ≠ r.ready_end) :
    fill_buf r = .ok (extract r.buffer r.ready_start r.ready_end, r) := by
  unfold fill_buf
  rw [if_neg h]

theorem fill_buf_at_boundary {r : MessageBoundaryReader} (h1 : r.ready_start = r.ready_end)
    (h2 : r.next_message_start.isSome = true) : fill_buf r = .ok ([], r) := by
  unfold fill_buf
  rw [if_pos h1, if_pos h2]

theorem fill_buf_main {r : MessageBoundaryReader} (h1 : r.ready_start = r.ready_end)
    (h2 : r.next_message_start = none) :
    fill_buf r =
      match (if r.ready_end = r.held_back then refill r else .ok r) with
      | .error r' => .error r'
      | .ok r1 =>
        .ok (extract (escape_step (marker_scan r1)).buffer
            (escape_step (marker_scan r1)).ready_start
            (escape_step (marker_scan r1)).ready_end,
          escape_step (marker_scan r1)) := by
  unfold fill_buf
  rw [if_pos h1, if_neg (by rw [h2]; simp)]

theorem scan_spec (ra : MessageBoundaryReader) (hwf : wf ra)
    (hnm : ra.next_message_start = none) (hb5 : ra.buffer_end ≤ ra.held_back + 5) :
    wf (escape_step (marker_scan ra)) ∧
      wfNM (escape_step (marker_scan ra)) ∧
      (escape_step (marker_scan ra)).src = ra.src ∧
      (escape_step (marker_scan ra)).cap = ra.cap ∧
      (escape_step (marker_scan ra)).ready_start = ra.ready_start ∧
      ra.removed ≤ (escape_step (marker_scan ra)).removed ∧
      (escape_step (marker_scan ra)).src.data.length +
          ((escape_step (marker_scan ra)).buffer_end -
            (escape_step (marker_scan ra)).ready_start) +
          (escape_step (marker_scan ra)).removed =
        ra.src.data.length + (ra.buffer_end - ra.ready_start) + ra.removed ∧
      (escape_step (marker_scan ra)).buffer_end ≤
        (escape_step (marker_scan ra)).held_back + 5 ∧
      (ra.ready_start < ra.held_back →
        (escape_step (marker_scan ra)).ready_start <
          (escape_step (marker_scan ra)).ready_end) ∧
      (ra.held_back ≤ ra.ready_start →
        escape_step (marker_scan ra) = { ra with ready_end := ra.held_back }) := by
  obtain ⟨w1, w2, w3, w4⟩ := hwf
  obtain ⟨m_rs, m_buf, m_hb, m_be, m_cap, m_src, m_rm⟩ := marker_scan_frame ra
  have hwfm : wf (marker_scan ra) := by
    rcases marker_scan_main ra with hrec | ⟨hm_nm, hm_lt, hm_hb, hm_byte⟩
    · rw [hrec]
      exact ⟨by dsimp only; omega, by dsimp only; omega, by dsimp only; omega,
        by dsimp only; omega⟩
    · exact ⟨by omega, by rw [m_hb]; omega, by rw [m_hb, m_be]; omega,
        by rw [m_be, m_cap]; omega⟩
  have hnmm : wfNM (marker_scan ra) := by
    rcases marker_scan_main ra with hrec | ⟨hm_nm, hm_lt, hm_hb, hm_byte⟩
    · rw [hrec]
      exact Or.inl (by dsimp only; rw [hnm])
    · exact Or.inr ⟨hm_nm, by rw [m_hb]; omega⟩
  obtain ⟨e_wf, e_rs, e_cap, e_src, e_rm, e_p, e_win, e_nm, e_hb5⟩ :=
    escape_step_inv (marker_scan ra) hwfm
  refine ⟨e_wf, e_nm hnmm, ?_, ?_, ?_, ?_, ?_, ?_, ?_, ?_⟩
  · rw [e_src, m_src]
  · rw [e_cap, m_cap]
  · rw [e_rs, m_rs]
  · rw [← m_rm]
    exact e_rm
  · rw [e_p, m_src, m_be, m_rs, m_rm]
  · exact e_hb5 (by rw [m_be, m_hb]; exact hb5)
  · intro hlt
    rw [e_rs]
    apply e_win
    rcases marker_scan_main ra with hrec | ⟨hm_nm, hm_lt, hm_hb, hm_byte⟩
    · rw [hrec]
      dsimp only
      omega
    · rw [m_rs]
      exact hm_lt
  · intro hge
    rcases marker_scan_main ra with hrec | ⟨hm_nm, hm_lt, hm_hb, hm_byte⟩
    · rw [hrec]
      rw [escape_step_of_empty (by dsimp only; omega)]
    · omega

theorem eom_none {r : MessageBoundaryReader} (h : r.next_message_start = none) :
    eom r = false := by
  unfold eom
  rw [h]

theorem eom_some {r : MessageBoundaryReader} {p : Nat}
    (h : r.next_message_start = some p) : eom r = true ↔ p = r.ready_start := by
  unfold eom
  rw [h]
  simp

theorem fill_buf_spec {r : MessageBoundaryReader} (hg : good r) {w : List Nat}
    {r1 : MessageBoundaryReader} (h : fill_buf r = .ok (w, r1)) :
    good r1 ∧
      pending r1 + r1.removed = pending r + r.removed ∧
      r.removed ≤ r1.removed ∧
      w = extract r1.buffer r1.ready_start r1.ready_end ∧
      r1.ready_start + w.length = r1.ready_end ∧
      (w = [] ↔ (eom r = true ∨ eofSt r)) ∧
      (w = [] → ((eom r1 = true ∧ r1 = r) ∨ (eofSt r1 ∧ r1.removed = r.removed))) := by
  obtain ⟨⟨w1, w2, w3, w4⟩, hnm, hplan, hcap, hb5⟩ := hg
  by_cases hrs : r.ready_start = r.ready_end
  · by_cases hns : r.next_message_start.isSome = true
    · -- pending boundary: no bytes, state unchanged
      rw [fill_buf_at_boundary hrs hns] at h
      simp only [Except.ok.injEq, Prod.mk.injEq] at h
      obtain ⟨hw, hr1⟩ := h
      subst hw
      subst hr1
      have hsome : r.next_message_start = some r.ready_end := by
        rcases hnm with h0 | ⟨hs, _⟩
        · rw [h0] at hns
          simp at hns
        · exact hs
      have heom : eom r = true := (eom_some hsome).mpr hrs.symm
      refine ⟨⟨⟨w1, w2, w3, w4⟩, hnm, hplan, hcap, hb5⟩, rfl, Nat.le_refl _,
        (extract_empty _ _ _ (Nat.le_of_eq hrs.symm)).symm, by simp [hrs], ?_, ?_⟩
      · constructor
        · intro _
          exact Or.inl heom
        · intro _
          rfl
      · intro _
        exact Or.inl ⟨heom, rfl⟩
    · have hnone : r.next_message_start = none := by
        cases hnms : r.next_message_start with
        | none => rfl
        | some p => rw [hnms] at hns; simp at hns
      rw [fill_buf_main hrs hnone] at h
      by_cases hrh : r.ready_end = r.held_back
      · -- refill path
        rw [if_pos hrh] at h
        obtain ⟨ra, hra, hbe1, hplan1, hcons1, hempty1, hframe1, hcontent1⟩ :=
          refill_plan_nil hplan (by omega) w4
        obtain ⟨e1, e2, e3, e4, e5, e6, e7, e8, e9, e10⟩ := refill_ok hra
        rw [hra] at h
        dsimp only at h
        simp only [Except.ok.injEq, Prod.mk.injEq] at h
        obtain ⟨hw, hr1⟩ := h
        subst hw
        subst hr1
        have hwfa : wf ra := ⟨by omega, by omega, e6, by rw [e4]; exact e10 (by omega) w4⟩
        have hnma : ra.next_message_start = none := by rw [e3, hnone]
        obtain ⟨s_wf, s_nm, s_src, s_cap, s_rs, s_rm, s_p, s_hb5, s_win, s_deg⟩ :=
          scan_spec ra hwfa hnma e7
        have hcapa : 6 ≤ ra.cap := by rw [e4]; exact hcap
        have hplana : ra.src.plan = [] := hplan1
        -- window emptiness analysis
        have hwin_iff : (escape_step (marker_scan ra)).ready_start <
            (escape_step (marker_scan ra)).ready_end ↔ 0 < ra.held_back := by
          constructor
          · intro hlt
            by_contra hz
            have hz0 : ra.held_back = 0 := by omega
            have hdeg := s_deg (by omega)
            rw [hdeg] at hlt
            dsimp only at hlt
            omega
          · intro hpos
            exact s_win (by omega)
        have hobe : ra.held_back = 0 → (r.held_back = r.buffer_end ∧ r.src.data = []) := by
          intro hz
          have hbz : ra.buffer_end = 0 := by
            by_contra hbz
            have := e8 (by omega)
            omega
          rw [hbe1] at hbz
          constructor
          · omega
          · have : r.buffer_end - r.held_back + r.src.data.length = 0 := by omega
            have hd0 : r.src.data.length = 0 := by omega
            exact List.eq_nil_of_length_eq_zero hd0
        refine ⟨⟨s_wf, s_nm, ?_, ?_, s_hb5⟩, ?_, ?_, rfl, ?_, ?_, ?_⟩
        · rw [s_src]
          exact hplana
        · rw [s_cap]
          exact hcapa
        · -- pending conservation
          unfold pending
          have heq1 := s_p
          rw [s_src] at heq1
          rw [s_src]
          have hrsa : ra.ready_start = 0 := e1
          have hrma : ra.removed = r.removed := e5
          omega
        · rw [← e5]
          exact s_rm
        · rw [extract_length]
          have := s_wf.1
          omega
        · -- emptiness characterization
          have hne_iff : extract (escape_step (marker_scan ra)).buffer
              (escape_step (marker_scan ra)).ready_start
              (escape_step (marker_scan ra)).ready_end = [] ↔
              ¬ (escape_step (marker_scan ra)).ready_start <
                (escape_step (marker_scan ra)).ready_end := by
            constructor
            · intro hnil hlt
              exact extract_ne_nil _ _ _ hlt hnil
            · intro hge
              exact extract_empty _ _ _ (by have := s_wf.1; omega)
          rw [hne_iff, hwin_iff]
          rw [eom_none hnone]
          unfold eofSt
          constructor
          · intro hz
            obtain ⟨hob1, hob2⟩ := hobe (by omega)
            exact Or.inr ⟨hrs, hrh, hob1, hob2, hnone⟩
          · intro hor
            rcases hor with hfalse | ⟨_, _, hbe_eq, hdata, _⟩
            · cases hfalse
            · intro hpos
              have hbz : ra.buffer_end = 0 := by
                rw [hbe1, hdata]
                simp
                omega
              have := e6
              omega
        · intro hnil
          right
          have hz : ra.held_back = 0 := by
            by_contra hz
            have hlt := hwin_iff.mpr (by omega)
            exact extract_ne_nil _ _ _ hlt hnil
          have hbz : ra.buffer_end = 0 := by
            by_contra hbz
            have := e8 (by omega)
            omega
          have hdeg := s_deg (by omega)
          have hdata : ra.src.data = [] := hempty1 (by omega)
          rw [hdeg]
          constructor
          · exact ⟨by dsimp only; omega, by dsimp only, by dsimp only; omega,
              by dsimp only; exact hdata, by dsimp only; exact hnma⟩
          · dsimp only
            exact e5
      · -- no refill: continue scanning pre-buffered content
        rw [if_neg hrh] at h
        dsimp only at h
        simp only [Except.ok.injEq, Prod.mk.injEq] at h
        obtain ⟨hw, hr1⟩ := h
        subst hw
        subst hr1
        obtain ⟨s_wf, s_nm, s_src, s_cap, s_rs, s_rm, s_p, s_hb5, s_win, s_deg⟩ :=
          scan_spec r ⟨w1, w2, w3, w4⟩ hnone hb5
        have hlt : r.ready_start < r.held_back := by omega
        have hwlt := s_win hlt
        refine ⟨⟨s_wf, s_nm, ?_, ?_, s_hb5⟩, ?_, s_rm, rfl, ?_, ?_, ?_⟩
        · rw [s_src]
          exact hplan
        · rw [s_cap]
          exact hcap
        · unfold pending
          have heq1 := s_p
          rw [s_src] at heq1
          rw [s_src]
          omega
        · rw [extract_length]
          have := s_wf.1
          omega
        · constructor
          · intro hnil
            exact absurd hnil (extract_ne_nil _ _ _ hwlt)
          · intro hor
            rcases hor with hfalse | ⟨_, hrh2, _, _, _⟩
            · rw [eom_none hnone] at hfalse
              cases hfalse
            · exact absurd hrh2 hrh
        · intro hnil
          exact absurd hnil (extract_ne_nil _ _ _ hwlt)
  · -- nonempty ready window: returned unchanged
    rw [fill_buf_window_ne hrs] at h
    simp only [Except.ok.injEq, Prod.mk.injEq] at h
    obtain ⟨hw, hr1⟩ := h
    subst hw
    subst hr1
    have hne : extract r.buffer r.ready_start r.ready_end ≠ [] :=
      extract_ne_nil _ _ _ (by omega)
    refine ⟨⟨⟨w1, w2, w3, w4⟩, hnm, hplan, hcap, hb5⟩, rfl, Nat.le_refl _, rfl, ?_, ?_, ?_⟩
    · rw [extract_length]
      omega
    · constructor
      · intro hnil
        exact absurd hnil hne
      · intro hor
        rcases hor with heo | hes
        · exfalso
          rcases hnm with h0 | ⟨hs, _⟩
          · rw [eom_none h0] at heo
            cases heo
          · have := (eom_some hs).mp heo
            omega
        · exact absurd hes.1 hrs
    · intro hnil
      exact absurd hnil hne

theorem wf_marker_scan (r : MessageBoundaryReader) (hw : wf r) : wf (marker_scan r) := by
  obtain ⟨w1, w2, w3, w4⟩ := hw
  obtain ⟨m_rs, m_buf, m_hb, m_be, m_cap, m_src, m_rm⟩ := marker_scan_frame r
  rcases marker_scan_main r with hrec | ⟨hm_nm, hm_lt, hm_hb, hm_byte⟩
  · rw [hrec]
    exact ⟨by dsimp only; omega, by dsimp only; omega, by dsimp only; omega,
      by dsimp only; omega⟩
  · exact ⟨by omega, by rw [m_hb]; omega, by rw [m_hb, m_be]; omega,
      by rw [m_be, m_cap]; omega⟩

theorem wf_scan (r : MessageBoundaryReader) (hw : wf r) :
    wf (escape_step (marker_scan r)) :=
  (escape_step_inv (marker_scan r) (wf_marker_scan r hw)).1

theorem wf_fill_buf (r : MessageBoundaryReader) (hw : wf r) : wf (fbState r) := by
  unfold fbState
  by_cases hrs : r.ready_start = r.ready_end
  · by_cases hns : r.next_message_start.isSome = true
    · rw [fill_buf_at_boundary hrs hns]
      exact hw
    · have hnone : r.next_message_start = none := by
        cases hnms : r.next_message_start with
        | none => rfl
        | some p => rw [hnms] at hns; simp at hns
      rw [fill_buf_main hrs hnone]
      by_cases hrh : r.ready_end = r.held_back
      · rw [if_pos hrh]
        cases hre : refill r with
        | error r' =>
          dsimp only
          obtain ⟨f1, f2, f3, f4, f5, f6, f7⟩ := refill_error hre
          exact ⟨by omega, by omega, by omega, by rw [f5]; exact f7 hw.2.2.1 hw.2.2.2⟩
        | ok ra =>
          dsimp only
          obtain ⟨e1, e2, e3, e4, e5, e6, e7, e8, e9, e10⟩ := refill_ok hre
          have hwfa : wf ra :=
            ⟨by omega, by omega, e6, by rw [e4]; exact e10 hw.2.2.1 hw.2.2.2⟩
          exact wf_scan ra hwfa
      · rw [if_neg hrh]
        dsimp only
        exact wf_scan r hw
  · rw [fill_buf_window_ne hrs]
    exact hw

theorem fill_buf_len {r : MessageBoundaryReader} (hw : wf r) {w : List Nat}
    {r1 : MessageBoundaryReader} (h : fill_buf r = .ok (w, r1)) :
    w = extract r1.buffer r1.ready_start r1.ready_end ∧
      r1.ready_start + w.length = r1.ready_end ∧ wf r1 := by
  have hwf1 : wf r1 := by
    have := wf_fill_buf r hw
    unfold fbState at this
    rw [h] at this
    exact this
  by_cases hrs : r.ready_start = r.ready_end
  · by_cases hns : r.next_message_start.isSome = true
    · rw [fill_buf_at_boundary hrs hns] at h
      simp only [Except.ok.injEq, Prod.mk.injEq] at h
      obtain ⟨hw', hr1⟩ := h
      subst hw'
      subst hr1
      exact ⟨(extract_empty _ _ _ (Nat.le_of_eq hrs.symm)).symm, by simp [hrs], hwf1⟩
    · have hnone : r.next_message_start = none := by
        cases hnms : r.next_message_start with
        | none => rfl
        | some p => rw [hnms] at hns; simp at hns
      rw [fill_buf_main hrs hnone] at h
      by_cases hrh : r.ready_end = r.held_back
      · rw [if_pos hrh] at h
        cases hre : refill r with
        | error r' => rw [hre] at h; cases h
        | ok ra =>
          rw [hre] at h
          dsimp only at h
          simp only [Except.ok.injEq, Prod.mk.injEq] at h
          obtain ⟨hw', hr1⟩ := h
          subst hw'
          subst hr1
          refine ⟨rfl, ?_, hwf1⟩
          rw [extract_length]
          have := hwf1.1
          omega
      · rw [if_neg hrh] at h
        dsimp only at h
        simp only [Except.ok.injEq, Prod.mk.injEq] at h
        obtain ⟨hw', hr1⟩ := h
        subst hw'
        subst hr1
        refine ⟨rfl, ?_, hwf1⟩
        rw [extract_length]
        have := hwf1.1
        omega
  · rw [fill_buf_window_ne hrs] at h
    simp only [Except.ok.injEq, Prod.mk.injEq] at h
    obtain ⟨hw', hr1⟩ := h
    subst hw'
    subst hr1
    refine ⟨rfl, ?_, hwf1⟩
    rw [extract_length]
    have := hwf1.1
    omega

theorem fill_buf_no_error {r : MessageBoundaryReader} (hwf : wf r)
    (hplan : r.src.plan = []) :
    ∃ w r1, fill_buf r = .ok (w, r1) := by
  obtain ⟨w1, w2, w3, w4⟩ := hwf
  by_cases hrs : r.ready_start = r.ready_end
  · by_cases hns : r.next_message_start.isSome = true
    · exact ⟨[], r, fill_buf_at_boundary hrs hns⟩
    · have hnone : r.next_message_start = none := by
        cases hnms : r.next_message_start with
        | none => rfl
        | some p => rw [hnms] at hns; simp at hns
      rw [fill_buf_main hrs hnone]
      by_cases hrh : r.ready_end = r.held_back
      · rw [if_pos hrh]
        cases hre : refill r with
        | error r' =>
          exfalso
          rw [refill_eq] at hre
          cases hrl : readLoop (r.cap + 1) r.src
              (copyLeft r.buffer r.held_back (r.buffer_end - r.held_back))
              (r.buffer_end - r.held_back) r.cap with
          | error p =>
            obtain ⟨b', be', heq, _, _, _⟩ :=
              readLoop_plan_nil (r.cap + 1) r.src
                (copyLeft r.buffer r.held_back (r.buffer_end - r.held_back))
                (r.buffer_end - r.held_back) r.cap hplan (by omega) (by omega)
            rw [heq] at hrl
            cases hrl
          | ok p =>
            rw [hrl] at hre
            obtain ⟨s', b', be'⟩ := p
            dsimp only at hre
            cases hre
        | ok ra => exact ⟨_, _, rfl⟩
      · rw [if_neg hrh]
        exact ⟨_, _, rfl⟩
  · exact ⟨_, _, fill_buf_window_ne hrs⟩

theorem wf_consume (r : MessageBoundaryReader) (amt : Nat) (hw : wf r)
    (h : amt ≤ r.ready_end - r.ready_start) : wf (consume r amt) := by
  obtain ⟨w1, w2, w3, w4⟩ := hw
  exact ⟨by unfold consume; dsimp only; omega, w2, w3, w4⟩

theorem wf_read (r : MessageBoundaryReader) (n : Nat) (hw : wf r) :
    wf (readState r n) := by
  unfold readState read
  cases hfb : fill_buf r with
  | error r' =>
    dsimp only
    have := wf_fill_buf r hw
    unfold fbState at this
    rw [hfb] at this
    exact this
  | ok p =>
    obtain ⟨avail, r1⟩ := p
    dsimp only
    obtain ⟨hav, hlen, hwf1⟩ := fill_buf_len hw hfb
    apply wf_consume r1 _ hwf1
    have hle := Nat.min_le_left avail.length n
    omega

theorem wf_eofState (r : MessageBoundaryReader) (hw : wf r) : wf (eofState r) := by
  unfold eofState eof
  by_cases he : eom r = true
  · rw [if_pos he]
    exact hw
  · rw [if_neg he]
    cases hfb : fill_buf r with
    | error r' =>
      dsimp only
      have := wf_fill_buf r hw
      unfold fbState at this
      rw [hfb] at this
      exact this
    | ok p =>
      obtain ⟨avail, r1⟩ := p
      dsimp only
      exact (fill_buf_len hw hfb).2.2

theorem wf_skip : ∀ fuel r, wf r → wf (skipState fuel r) := by
  intro fuel
  induction fuel with
  | zero => intro r hw; exact hw
  | succ f ih =>
    intro r hw
    unfold skipState skip_message
    cases hfb : fill_buf r with
    | error r' =>
      dsimp only
      have := wf_fill_buf r hw
      unfold fbState at this
      rw [hfb] at this
      exact this
    | ok p =>
      obtain ⟨w, r1⟩ := p
      dsimp only
      obtain ⟨hav, hlen, hwf1⟩ := fill_buf_len hw hfb
      by_cases hz : w.length = 0
      · rw [if_pos hz]
        exact hwf1
      · rw [if_neg hz]
        have hwc : wf (consume r1 w.length) := wf_consume r1 _ hwf1 (by omega)
        have hrec := ih (consume r1 w.length) hwc
        unfold skipState at hrec
        cases hsm : skip_message f (consume r1 w.length) with
        | none => exact hw
        | some e =>
          rw [hsm] at hrec
          cases e with
          | ok r' => exact hrec
          | error r' => exact hrec

/-- C1: for the input bytes `"From line1\nFrom line2"`, a fresh reader
delivers exactly the 11 bytes `"From line1\n"` and then returns no bytes,
at which point `eom` holds; after `reset_eom`, reading delivers exactly
the 10 bytes `"From line2"` and then returns no bytes with `eof` true. -/
theorem c1_boundary_precision :
    readBytesOf c1r0 100 = [70, 114, 111, 109, 32, 108, 105, 110, 101, 49, 10] ∧
      readBytesOf c1r1 100 = [] ∧ eom c1r1 = true ∧
      readBytesOf c1r2 100 = [70, 114, 111, 109, 32, 108, 105, 110, 101, 50] ∧
      readBytesOf c1r3 100 = [] ∧ eofBool c1r3 = true ∧ eom c1r3 = false := by
  decide

/-- C2 (counterexample): for the input `"x\n>From a\n>From b"` both
escaped lines land in the same freshly computed ready window, and the
reader removes the `>` only from the first one: the delivered bytes still
contain `"\n>From b"` (the byte 62 at index 9, right after the line break
at index 8 and immediately followed by `"From "`), so the second escaped
line is delivered unchanged, contradicting the claim for that line. -/
theorem c2_counterexample :
    fbBytes (MessageBoundaryReader.new c2src) =
      [120, 10, 70, 114, 111, 109, 32, 97, 10, 62, 70, 114, 111, 109, 32, 98] ∧
      (fbBytes (MessageBoundaryReader.new c2src)).getD 8 0 = 10 ∧
      (fbBytes (MessageBoundaryReader.new c2src)).getD 9 0 = 62 ∧
      (fbBytes (MessageBoundaryReader.new c2src)).drop 10 = [70, 114, 111, 109, 32, 98] := by
  decide

/-- C2 (amended): escape removal keys on the first occurrence of the
two-byte needle `"\n>"` in the freshly computed ready window: when the
bytes after that first occurrence consist of zero or more further `>`
and then `From `, exactly one byte — the first `>`, at window offset
`off + 1` — is removed, regardless of how many `>` bytes are present,
and the rest of the window is delivered unchanged; the reader never
retries a later occurrence, so on `"a\n>x\n>From b"`, whose full escape
pattern `"\n>From "` sits behind the earlier non-matching `"\n>x"`, the
window is delivered unchanged and nothing is removed even though the
window contains the pattern. -/
theorem c2_escape_once_per_window (r : MessageBoundaryReader) (off fo : Nat)
    (hwf : wf r)
    (h1 : findSub (extract r.buffer r.ready_start r.ready_end) newlineGt = some off)
    (h2 : findSub (extract r.buffer (r.ready_start + off + 1) r.ready_end) fromWord = some fo)
    (h3 : (extract r.buffer (r.ready_start + off + 1) (r.ready_start + off + 1 + fo)).all
        (fun x => x == 62) = true) :
    extract (escape_step r).buffer (escape_step r).ready_start (escape_step r).ready_end =
      (extract r.buffer r.ready_start r.ready_end).take (off + 1) ++
        (extract r.buffer r.ready_start r.ready_end).drop (off + 2) ∧
      (extract r.buffer r.ready_start r.ready_end).getD (off + 1) 0 = 62 ∧
      (escape_step r).removed = r.removed + 1 ∧
      fbBytes (MessageBoundaryReader.new c2bsrc) =
        [97, 10, 62, 120, 10, 62, 70, 114, 111, 109, 32, 98] ∧
      findSub [97, 10, 62, 120, 10, 62, 70, 114, 111, 109, 32, 98]
        (newlineGt ++ fromWord) = some 4 ∧
      (fbState (MessageBoundaryReader.new c2bsrc)).removed = 0 := by
  obtain ⟨w1, w2, w3, w4⟩ := hwf
  obtain ⟨hbound1, hbytes1⟩ := findSub_extract (by decide) h1
  obtain ⟨hbound2, hbytes2⟩ := findSub_extract (by decide) h2
  have hlen1 : newlineGt.length = 2 := by decide
  have hlen2 : fromWord.length = 5 := by decide
  rw [hlen1] at hbound1
  rw [hlen2] at hbound2
  unfold escape_step
  rw [h1]
  dsimp only
  rw [h2]
  dsimp only
  rw [if_pos h3]
  refine ⟨?_, ?_, rfl, by decide, by decide, by decide⟩
  · dsimp only
    rw [extract_take, extract_drop]
    have hmin : min r.ready_end (r.ready_start + (off + 1)) = r.ready_start + off + 1 := by
      omega
    rw [hmin]
    rw [extract_split (removeAt1 r.buffer (r.ready_start + off + 1) r.cap)
      r.ready_start (r.ready_start + off + 1) (r.ready_end - 1) (by omega) (by omega)]
    congr 1
    · apply extract_congr
      intro i hi1 hi2
      exact removeAt1_lo _ _ _ _ hi2
    · apply List.ext_getElem
      · rw [extract_length, extract_length]
        omega
      · intro i hi hj
        rw [extract_getElem _ _ _ _ hi, extract_getElem _ _ _ _ hj]
        rw [extract_length] at hi
        rw [removeAt1_mid _ _ _ _ (by omega) (by omega)]
        congr 1
        omega
  · rw [extract_getD _ _ _ _ (by omega)]
    have hb := hbytes1 1 (by decide)
    have : r.ready_start + (off + 1) = r.ready_start + off + 1 := by omega
    rw [this]
    rw [hb]
    decide

/-- C2 (amended) witness: a concrete well-formed state whose window is
`"a\n>>>From bc\n...."`; the step removes exactly one `>`, and the
no-retry instance on `"a\n>x\n>From b"` is delivered unchanged. -/
theorem c2_escape_once_per_window_witness :
    wf c2state ∧
      findSub (extract c2state.buffer c2state.ready_start c2state.ready_end) newlineGt =
        some 1 ∧
      findSub (extract c2state.buffer (c2state.ready_start + 1 + 1) c2state.ready_end)
        fromWord = some 3 ∧
      (extract c2state.buffer (c2state.ready_start + 1 + 1)
        (c2state.ready_start + 1 + 1 + 3)).all (fun x => x == 62) = true ∧
      (extract (escape_step c2state).buffer (escape_step c2state).ready_start
          (escape_step c2state).ready_end =
        (extract c2state.buffer c2state.ready_start c2state.ready_end).take 2 ++
          (extract c2state.buffer c2state.ready_start c2state.ready_end).drop 3 ∧
        (extract c2state.buffer c2state.ready_start c2state.ready_end).getD 2 0 = 62 ∧
        (escape_step c2state).removed = c2state.removed + 1 ∧
        fbBytes (MessageBoundaryReader.new c2bsrc) =
          [97, 10, 62, 120, 10, 62, 70, 114, 111, 109, 32, 98] ∧
        findSub [97, 10, 62, 120, 10, 62, 70, 114, 111, 109, 32, 98]
          (newlineGt ++ fromWord) = some 4 ∧
        (fbState (MessageBoundaryReader.new c2bsrc)).removed = 0) :=
  ⟨by decide, by decide, by decide, by decide,
    c2_escape_once_per_window c2state 1 3 (by decide) (by decide) (by decide) (by decide)⟩

/-- C3: while a boundary is pending (`next_message_start = some p`),
`read` only ever returns bytes drawn from buffer positions strictly
before `p` — the caller never sees a byte at or after the next message's
start, however large the request — and the reader state advances only by
the consumed amount, so the property is stable across any sequence of
reads until `reset_eom`. -/
theorem c3_no_cross_boundary_leak (r : MessageBoundaryReader) (p n : Nat)
    (hg : good r) (hp : r.next_message_start = some p) :
    ∀ bs r', read r n = .ok (bs, r') →
      bs = extract r.buffer r.ready_start (r.ready_start + bs.length) ∧
        r.ready_start + bs.length ≤ p ∧
        r' = consume r bs.length := by
  obtain ⟨⟨w1, w2, w3, w4⟩, hnm, hplan, hcap, hb5⟩ := hg
  have hpe : p = r.ready_end := by
    rcases hnm with h0 | ⟨hs, _⟩
    · rw [h0] at hp
      cases hp
    · rw [hs] at hp
      injection hp with hpp
      exact hpp.symm
  intro bs r' h
  unfold read at h
  by_cases hrs : r.ready_start = r.ready_end
  · have hns : r.next_message_start.isSome = true := by rw [hp]; rfl
    rw [fill_buf_at_boundary hrs hns] at h
    dsimp only at h
    simp only [List.length_nil, Nat.zero_min, List.take_nil] at h
    simp only [Except.ok.injEq, Prod.mk.injEq] at h
    obtain ⟨hbs, hr'⟩ := h
    subst hbs
    subst hr'
    refine ⟨?_, ?_, rfl⟩
    · rw [(extract_empty r.buffer r.ready_start _ (by simp))]
    · simp
      omega
  · rw [fill_buf_window_ne hrs] at h
    dsimp only at h
    simp only [Except.ok.injEq, Prod.mk.injEq] at h
    obtain ⟨hbs, hr'⟩ := h
    have hlen : bs.length = min (extract r.buffer r.ready_start r.ready_end).length n := by
      rw [← hbs, List.length_take]
      omega
    rw [extract_length] at hlen
    refine ⟨?_, ?_, ?_⟩
    · rw [← hbs, extract_take]
      simp only [extract_length]
      congr 1
      omega
    · omega
    · rw [← hr']
      congr 1
      rw [extract_length]
      omega

/-- C3 witness: after the first `fill_buf` over `"From line1\nFrom
line2"` the boundary is pending at 11; an oversized read stays below it. -/
theorem c3_no_cross_boundary_leak_witness :
    good c3state ∧ c3state.next_message_start = some 11 ∧
      (∀ bs r', read c3state 99 = .ok (bs, r') →
        bs = extract c3state.buffer c3state.ready_start (c3state.ready_start + bs.length) ∧
          c3state.ready_start + bs.length ≤ 11 ∧
          r' = consume c3state bs.length) :=
  ⟨by decide, by decide, c3_no_cross_boundary_leak c3state 11 99 (by decide) (by decide)⟩

/-- C8 (counterexample): with two successful source reads and then a
failing one, the reader consumes the first window (`ready_start = 6`,
two bytes held back) and the next `fill_buf` hits the source error
mid-refill — but only after the rebase has already moved the held-back
bytes and reset the offsets, so the failing operation *does* mutate the
reader's state (`ready_start` 6 → 0, `held_back` 6 → 2, `buffer_end`
8 → 2), contradicting "without mutating the reader's state further". -/
theorem c8_counterexample :
    c8a.ready_start = 6 ∧ c8a.held_back = 6 ∧ c8a.buffer_end = 8 ∧
      fbErr c8a = true ∧
      (fbState c8a).ready_start = 0 ∧ (fbState c8a).held_back = 2 ∧
      (fbState c8a).buffer_end = 2 := by
  decide

/-- C8 (amended): a source read failure is surfaced immediately — `read`
propagates exactly `fill_buf`'s error and delivers no bytes — but the
state left behind is the rebased refill state (`ready_start = ready_end
= 0`, `held_back = buffer_end`, no pending boundary): the offset rebase
precedes the failing source read, so the reader's state is mutated and a
retry resumes from the rebased state, not the pre-call state. -/
theorem c8_error_propagation :
    (∀ r n, readErr r n = fbErr r) ∧
      (∀ r, fbErr r = true →
        (fbState r).ready_start = 0 ∧ (fbState r).ready_end = 0 ∧
          (fbState r).held_back = (fbState r).buffer_end ∧
          (fbState r).next_message_start = none) := by
  constructor
  · intro r n
    unfold readErr read fbErr
    cases fill_buf r with
    | error r' => rfl
    | ok p => rfl
  · intro r herr
    unfold fbErr at herr
    unfold fbState
    by_cases hrs : r.ready_start = r.ready_end
    · by_cases hns : r.next_message_start.isSome = true
      · rw [fill_buf_at_boundary hrs hns] at herr ⊢
        cases herr
      · have hnone : r.next_message_start = none := by
          cases hnms : r.next_message_start with
          | none => rfl
          | some q => rw [hnms] at hns; simp at hns
        rw [fill_buf_main hrs hnone] at herr ⊢
        by_cases hrh : r.ready_end = r.held_back
        · rw [if_pos hrh] at herr ⊢
          cases hre : refill r with
          | error r' =>
            dsimp only
            obtain ⟨f1, f2, f3, f4, f5, f6, f7⟩ := refill_error hre
            rw [f4]
            exact ⟨f1, f2, f3, hnone⟩
          | ok ra =>
            rw [hre] at herr
            dsimp only at herr
            cases herr
        · rw [if_neg hrh] at herr
          try dsimp only at herr
          cases herr
    · rw [fill_buf_window_ne hrs] at herr
      cases herr

/-- C8 (amended) witness: the rebased state after the failing refill of
`c8a`. -/
theorem c8_error_propagation_witness :
    readErr c8a 5 = fbErr c8a ∧ fbErr c8a = true ∧
      ((fbState c8a).ready_start = 0 ∧ (fbState c8a).ready_end = 0 ∧
        (fbState c8a).held_back = (fbState c8a).buffer_end ∧
        (fbState c8a).next_message_start = none) :=
  ⟨c8_error_propagation.1 c8a 5, by decide, c8_error_propagation.2 c8a (by decide)⟩

/-- C9 (counterexample): over `"abcdef\nx"` the first window is the six
bytes before the held-back `"\nx"`; after the caller consumes them
(`ready_start = 6`), the next `fill_buf` refills and rebases
`ready_start` back to 0 — the offset decreases, and it was changed by
`fill_buf`, not by the caller consuming bytes. -/
theorem c9_counterexample :
    c9a.ready_start = 6 ∧ fbErr c9a = false ∧ (fbState c9a).ready_start = 0 := by
  decide

/-- C9 (amended): `ready_start` is advanced by `consume` by exactly the
consumed amount and is never otherwise changed except by `fill_buf`'s
refill, which rebases it to 0 together with the whole window;
`reset_eom` leaves it unchanged. -/
theorem c9_ready_start_behavior :
    (∀ r amt, (consume r amt).ready_start = r.ready_start + amt) ∧
      (∀ r, (fbState r).ready_start = r.ready_start ∨ (fbState r).ready_start = 0) ∧
      (∀ r, (reset_eom r).ready_start = r.ready_start) := by
  refine ⟨fun r amt => rfl, ?_, fun r => rfl⟩
  intro r
  unfold fbState
  by_cases hrs : r.ready_start = r.ready_end
  · by_cases hns : r.next_message_start.isSome = true
    · rw [fill_buf_at_boundary hrs hns]
      exact Or.inl rfl
    · have hnone : r.next_message_start = none := by
        cases hnms : r.next_message_start with
        | none => rfl
        | some q => rw [hnms] at hns; simp at hns
      rw [fill_buf_main hrs hnone]
      by_cases hrh : r.ready_end = r.held_back
      · rw [if_pos hrh]
        cases hre : refill r with
        | error r' =>
          dsimp only
          exact Or.inr (refill_error hre).1
        | ok ra =>
          dsimp only
          right
          obtain ⟨s_rs, _, _⟩ := escape_step_frame (marker_scan ra)
          obtain ⟨m_rs, _, _, _, _, _, _⟩ := marker_scan_frame ra
          rw [s_rs, m_rs, (refill_ok hre).1]
      · rw [if_neg hrh]
        dsimp only
        left
        obtain ⟨s_rs, _, _⟩ := escape_step_frame (marker_scan r)
        obtain ⟨m_rs, _, _, _, _, _, _⟩ := marker_scan_frame r
        rw [s_rs, m_rs]
  · rw [fill_buf_window_ne hrs]
    exact Or.inl rfl

/-- C6: the offset chain `0 ≤ ready_start ≤ ready_end ≤ held_back ≤
buffer_end ≤ capacity` holds after construction and is preserved by every
operation: `fill_buf` (both on success and on a source error, and across
the escape-removal shift, which decrements `ready_end`, `held_back`,
`buffer_end` and `next_message_start` together), `read`, `consume` with a
valid amount, `eof`, `reset_eom` when `eom` holds, and `skip_message`. -/
theorem c6_offset_invariants :
    (∀ s, wf (MessageBoundaryReader.new s)) ∧
      (∀ r, wf r → wf (fbState r)) ∧
      (∀ r n, wf r → wf (readState r n)) ∧
      (∀ r amt, wf r → amt ≤ r.ready_end - r.ready_start → wf (consume r amt)) ∧
      (∀ r, wf r → wf (eofState r)) ∧
      (∀ r, wf r → eom r = true → wf (reset_eom r)) ∧
      (∀ fuel r, wf r → wf (skipState fuel r)) := by
  refine ⟨?_, wf_fill_buf, wf_read, wf_consume, wf_eofState, ?_, wf_skip⟩
  · intro s
    exact ⟨Nat.le_refl _, Nat.le_refl _, Nat.le_refl _,
      by dsimp only [MessageBoundaryReader.new]; decide⟩
  · intro r hw _
    exact hw

/-- C6 witness: the chain at a fresh reader and along the first
operations over `"From line1\nFrom line2"`. -/
theorem c6_offset_invariants_witness :
    wf (MessageBoundaryReader.new c1src) ∧ wf (fbState (MessageBoundaryReader.new c1src)) ∧
      wf (readState (MessageBoundaryReader.new c1src) 3) ∧
      wf (consume (fbState (MessageBoundaryReader.new c1src)) 2) ∧
      wf (eofState c1r3) ∧ (eom c1r1 = true ∧ wf (reset_eom c1r1)) ∧
      wf (skipState 30 (MessageBoundaryReader.new c1src)) :=
  ⟨c6_offset_invariants.1 c1src,
    c6_offset_invariants.2.1 _ (by decide),
    c6_offset_invariants.2.2.1 _ 3 (by decide),
    c6_offset_invariants.2.2.2.1 _ 2 (by decide) (by decide),
    c6_offset_invariants.2.2.2.2.1 _ (by decide),
    ⟨by decide, c6_offset_invariants.2.2.2.2.2.1 _ (by decide) (by decide)⟩,
    c6_offset_invariants.2.2.2.2.2.2 30 _ (by decide)⟩

/-- C7: for a reader in a reachable state over a plain slice source,
`read` with a request of at least one byte returns no bytes exactly when
`eom` holds or the code's own `eof` is true (the source is truly
exhausted); in every other state it returns at least one byte.  The
internal buffer is refilled only when the ready window is empty and no
boundary is pending: otherwise `fill_buf` leaves the state (and in
particular the underlying source) untouched. -/
theorem c7_read_zero_iff (r : MessageBoundaryReader) (n : Nat) (hg : good r)
    (hn : 1 ≤ n) (he : fbErr r = false) :
    (readBytesOf r n = [] ↔ (eom r = true ∨ eofBool r = true)) ∧
      ((r.ready_start ≠ r.ready_end ∨ r.next_message_start ≠ none) → fbState r = r) := by
  obtain ⟨w, r1, hfb⟩ : ∃ w r1, fill_buf r = .ok (w, r1) := by
    unfold fbErr at he
    cases hfb : fill_buf r with
    | error r' => rw [hfb] at he; cases he
    | ok p =>
      obtain ⟨w, r1⟩ := p
      exact ⟨w, r1, rfl⟩
  obtain ⟨hg1, hp1, hrm1, hw1, hlen1, hiff, hempty⟩ := fill_buf_spec hg hfb
  constructor
  · have hbytes : readBytesOf r n = w.take (min w.length n) := by
      unfold readBytesOf read
      rw [hfb]
    have hA : readBytesOf r n = [] ↔ w = [] := by
      rw [hbytes]
      constructor
      · intro hnil
        have := congrArg List.length hnil
        simp only [List.length_take, List.length_nil] at this
        have : w.length = 0 := by omega
        exact List.eq_nil_of_length_eq_zero this
      · intro hwnil
        rw [hwnil]
        simp
    have hB : eofBool r = true ↔ (eom r = false ∧ w = []) := by
      unfold eofBool eof
      by_cases heo : eom r = true
      · rw [if_pos heo]
        simp [heo]
      · rw [if_neg heo, hfb]
        simp only [List.isEmpty_iff]
        constructor
        · intro hwnil
          exact ⟨by simpa using heo, hwnil⟩
        · intro hh
          exact hh.2
    rw [hA, hiff]
    constructor
    · intro hor
      rcases hor with heo | hes
      · exact Or.inl heo
      · right
        rw [hB]
        have heo : eom r = false := by
          rw [eom_none hes.2.2.2.2]
        exact ⟨heo, hiff.mpr (Or.inr hes)⟩
    · intro hor
      rcases hor with heo | heb
      · exact Or.inl heo
      · rw [hB] at heb
        exact hiff.mp heb.2
  · intro hor
    unfold fbState
    rcases hor with hrs | hnms
    · rw [fill_buf_window_ne hrs]
    · by_cases hrs : r.ready_start = r.ready_end
      · have hns : r.next_message_start.isSome = true := by
          cases hnms2 : r.next_message_start with
          | none => exact absurd hnms2 hnms
          | some q => rfl
        rw [fill_buf_at_boundary hrs hns]
      · rw [fill_buf_window_ne hrs]

/-- C7 witness: a fresh reader over `"abc"` delivers bytes (not zero) and
is neither at `eom` nor at `eof`. -/
theorem c7_read_zero_iff_witness :
    good c7r ∧ 1 ≤ 3 ∧ fbErr c7r = false ∧
      ((readBytesOf c7r 3 = [] ↔ (eom c7r = true ∨ eofBool c7r = true)) ∧
        ((c7r.ready_start ≠ c7r.ready_end ∨ c7r.next_message_start ≠ none) →
          fbState c7r = c7r)) :=
  ⟨by decide, by decide, by decide, c7_read_zero_iff c7r 3 (by decide) (by decide) (by decide)⟩

theorem new_ready_start (s : Src) : (MessageBoundaryReader.new s).ready_start = 0 := rfl

theorem new_ready_end (s : Src) : (MessageBoundaryReader.new s).ready_end = 0 := rfl

theorem new_held_back (s : Src) : (MessageBoundaryReader.new s).held_back = 0 := rfl

theorem new_buffer_end (s : Src) : (MessageBoundaryReader.new s).buffer_end = 0 := rfl

theorem new_cap (s : Src) : (MessageBoundaryReader.new s).cap = 8192 := rfl

theorem new_nms (s : Src) : (MessageBoundaryReader.new s).next_message_start = none := rfl

theorem new_removed (s : Src) : (MessageBoundaryReader.new s).removed = 0 := rfl

theorem new_src (s : Src) : (MessageBoundaryReader.new s).src = s := rfl

theorem good_new (s : Src) (h : s.plan = []) : good (MessageBoundaryReader.new s) := by
  refine ⟨⟨?_, ?_, ?_, ?_⟩, ?_, ?_, ?_, ?_⟩ <;>
    simp [new_ready_start, new_ready_end, new_held_back, new_buffer_end, new_cap,
      new_nms, new_src, wfNM, h]

/-- The first window of a fresh reader: if the first `m` bytes of the
input contain no line break, the first `fill_buf` makes at least `m`
bytes ready and delivers the first `m` of them unchanged. -/
theorem fresh_first_window (bs : List Nat) (m : Nat) (hm1 : 1 ≤ m)
    (hmcap : m ≤ 8192) (hmlen : m ≤ bs.length)
    (hne : ∀ i, i < m → bs.getD i 0 ≠ 10) :
    m ≤ (fbBytes (MessageBoundaryReader.new ⟨bs, []⟩)).length ∧
      ∀ i, i < m → (fbBytes (MessageBoundaryReader.new ⟨bs, []⟩)).getD i 0 = bs.getD i 0 := by
  obtain ⟨ra, hra, hbe1, hplan1, hcons1, hempty1, hframe1, hcontent1⟩ :=
    refill_plan_nil (r := MessageBoundaryReader.new ⟨bs, []⟩) rfl (Nat.le_refl _)
      (by rw [new_buffer_end, new_cap]; omega)
  obtain ⟨e1, e2, e3, e4, e5, e6, e7, e8, e9, e10⟩ := refill_ok hra
  rw [new_cap, new_buffer_end, new_held_back, new_src] at hbe1
  simp only [Nat.sub_zero, Nat.zero_add] at hbe1
  have hmbe : m ≤ ra.buffer_end := by
    rw [hbe1]
    omega
  have hcontent : ∀ i, i < ra.buffer_end → ra.buffer i = bs.getD i 0 := by
    intro i hi
    have h := hcontent1 i (by rw [new_buffer_end, new_held_back]; omega) hi
    rw [new_src, new_buffer_end, new_held_back] at h
    simpa using h
  have hbne : ∀ i, i < m → ra.buffer i ≠ 10 := by
    intro i hi
    rw [hcontent i (by omega)]
    exact hne i hi
  have hhbm : m ≤ ra.held_back := by
    by_contra hlt
    have hb10 := e9 (by omega)
    exact hbne ra.held_back (by omega) hb10
  -- the fill_buf equation
  have hfb : fill_buf (MessageBoundaryReader.new ⟨bs, []⟩) =
      .ok (extract (escape_step (marker_scan ra)).buffer
          (escape_step (marker_scan ra)).ready_start
          (escape_step (marker_scan ra)).ready_end,
        escape_step (marker_scan ra)) := by
    have hcond : (MessageBoundaryReader.new (⟨bs, []⟩ : Src)).ready_end =
        (MessageBoundaryReader.new ⟨bs, []⟩).held_back := rfl
    rw [fill_buf_main rfl rfl, if_pos hcond, hra]
  obtain ⟨m_rs, m_buf, m_hb, m_be, m_cap, m_src, m_rm⟩ := marker_scan_frame ra
  -- the scan target keeps at least m ready bytes
  have hrem : m ≤ (marker_scan ra).ready_end ∧ (marker_scan ra).ready_end ≤ ra.held_back := by
    rcases marker_scan_main ra with hrec | ⟨hm_nm, hm_lt, hm_hb, hm_byte⟩
    · rw [hrec]
      exact ⟨hhbm, Nat.le_refl _⟩
    · constructor
      · by_contra hltm
        have hb1 : (marker_scan ra).ready_end - 1 < m := by omega
        have := hm_byte
        exact hbne _ hb1 this
      · omega
  have hbufeq : ∀ i, i < m → (escape_step (marker_scan ra)).buffer i = ra.buffer i ∧
      m ≤ (escape_step (marker_scan ra)).ready_end ∧
      (escape_step (marker_scan ra)).ready_start = 0 := by
    intro i him
    rcases escape_step_cases (marker_scan ra) with hid | ⟨off, fo, _, _, _, h4, h5, hb10, _, heq⟩
    · rw [hid]
      refine ⟨by rw [m_buf], ?_, by rw [m_rs, e1]⟩
      omega
    · have hrsm : (marker_scan ra).ready_start = 0 := by rw [m_rs, e1]
      have hoffm : m ≤ off := by
        by_contra hoff
        apply hbne ((marker_scan ra).ready_start + off)
        · rw [hrsm]
          omega
        · rw [← m_buf]
          exact hb10
      rw [heq]
      refine ⟨?_, ?_, by dsimp only; rw [m_rs, e1]⟩
      · dsimp only
        rw [removeAt1_lo _ _ _ _ (by omega), m_buf]
      · dsimp only
        omega
  constructor
  · unfold fbBytes
    rw [hfb]
    rw [extract_length]
    obtain ⟨_, hre3, hrs3⟩ := hbufeq 0 (by omega)
    omega
  · intro i him
    unfold fbBytes
    rw [hfb]
    obtain ⟨hbuf3, hre3, hrs3⟩ := hbufeq i him
    rw [extract_getD _ _ _ _ (by rw [hrs3]; omega)]
    rw [hrs3]
    simp only [Nat.zero_add]
    rw [hbuf3]
    exact hcontent i (by omega)

/-- C10: when the input stream begins at offset 0 with one or more `>`
followed by `From ` (no preceding line break, since it is the very first
line and fits the buffer), no `>` is removed: escape removal only applies
after a line-break byte, so the first `k + 5` delivered bytes are exactly
the original `'>' * k ++ "From "`. -/
theorem c10_first_line_unescaped (k : Nat) (rest : List Nat) (hk : 1 ≤ k)
    (hcap : k + 5 ≤ 8192) :
    k + 5 ≤ (fbBytes (MessageBoundaryReader.new
        ⟨List.replicate k 62 ++ fromWord ++ rest, []⟩)).length ∧
      (fbBytes (MessageBoundaryReader.new
        ⟨List.replicate k 62 ++ fromWord ++ rest, []⟩)).take (k + 5) =
        List.replicate k 62 ++ fromWord := by
  have hfwlen : fromWord.length = 5 := by decide
  have hABlen : (List.replicate k 62 ++ fromWord).length = k + 5 := by
    rw [List.length_append, List.length_replicate, hfwlen]
  have hfront : ∀ i, i < k + 5 →
      (List.replicate k 62 ++ fromWord ++ rest).getD i 0 =
        (List.replicate k 62 ++ fromWord).getD i 0 := by
    intro i hi
    rw [List.getD_append _ _ _ _ (by rw [hABlen]; omega)]
  have hfw10 : ∀ j, j < 5 → fromWord.getD j 0 ≠ 10 := by decide
  have hne : ∀ i, i < k + 5 →
      (List.replicate k 62 ++ fromWord ++ rest).getD i 0 ≠ 10 := by
    intro i hi
    rw [hfront i hi]
    rcases Nat.lt_or_ge i k with hik | hik
    · rw [List.getD_append _ _ _ _ (by rw [List.length_replicate]; omega)]
      rw [List.getD_eq_getElem _ _ (by rw [List.length_replicate]; omega),
        List.getElem_replicate]
      omega
    · rw [List.getD_append_right _ _ _ _ (by rw [List.length_replicate]; omega),
        List.length_replicate]
      exact hfw10 (i - k) (by omega)
  have hlen : k + 5 ≤ (List.replicate k 62 ++ fromWord ++ rest).length := by
    rw [List.length_append, hABlen]
    omega
  obtain ⟨hA, hB⟩ := fresh_first_window (List.replicate k 62 ++ fromWord ++ rest)
    (k + 5) (by omega) hcap hlen hne
  refine ⟨hA, ?_⟩
  apply List.ext_getElem
  · rw [List.length_take, hABlen]
    omega
  · intro i hi hj
    rw [List.getElem_take]
    rw [← List.getD_eq_getElem _ 0, ← List.getD_eq_getElem _ 0]
    have hikm : i < k + 5 := by
      rw [hABlen] at hj
      exact hj
    rw [hB i hikm, hfront i hikm]

/-- C10 witness: `">>From a"` is delivered with both `>` intact. -/
theorem c10_first_line_unescaped_witness :
    1 ≤ 2 ∧ 2 + 5 ≤ 8192 ∧
      (2 + 5 ≤ (fbBytes (MessageBoundaryReader.new
          ⟨List.replicate 2 62 ++ fromWord ++ [97], []⟩)).length ∧
        (fbBytes (MessageBoundaryReader.new
          ⟨List.replicate 2 62 ++ fromWord ++ [97], []⟩)).take (2 + 5) =
          List.replicate 2 62 ++ fromWord) :=
  ⟨by decide, by decide, c10_first_line_unescaped 2 [97] (by decide) (by decide)⟩

theorem msgVia_zero (n : Nat) (r : MessageBoundaryReader) : msgVia 0 n r = none := rfl

theorem msgVia_succ (g n : Nat) (r : MessageBoundaryReader) :
    msgVia (g + 1) n r =
      match read r n with
      | .error _ => none
      | .ok (bs, r') =>
        if bs.length = 0 then some [] else (msgVia g n r').map (fun x => bs ++ x) := by
  have hL : readMsg (g + 1) n r =
      (match read r n with
      | .error r' => some (.error r')
      | .ok (bs, r') =>
        if bs.length = 0 then some (.ok ([], r'))
        else
          match readMsg g n r' with
          | none => none
          | some (.error r'') => some (.error r'')
          | some (.ok (rest, r'')) => some (.ok (bs ++ rest, r''))) := rfl
  unfold msgVia
  rw [hL]
  cases hr : read r n with
  | error r' => rfl
  | ok p =>
    obtain ⟨bs, r'⟩ := p
    dsimp only
    by_cases hz : bs.length = 0
    · rw [if_pos hz, if_pos hz]
    · rw [if_neg hz, if_neg hz]
      cases hrm : readMsg g n r' with
      | none => rfl
      | some e =>
        cases e with
        | error r'' => rfl
        | ok q => rfl

theorem msgVia_decomp : ∀ f n r o, 1 ≤ n → r.ready_start < r.ready_end →
    msgVia f n r = some o →
    ∃ o2 f2, f2 < f ∧ o = extract r.buffer r.ready_start r.ready_end ++ o2 ∧
      msgVia f2 n { r with ready_start := r.ready_end } = some o2 := by
  intro f
  induction f with
  | zero =>
    intro n r o hn hlt h
    rw [msgVia_zero] at h
    cases h
  | succ g ih =>
    intro n r o hn hlt h
    rw [msgVia_succ] at h
    have hfb := fill_buf_window_ne (show r.ready_start ≠ r.ready_end by omega)
    have hread : read r n = .ok
        ((extract r.buffer r.ready_start r.ready_end).take
          (min (extract r.buffer r.ready_start r.ready_end).length n),
         consume r (min (extract r.buffer r.ready_start r.ready_end).length n)) := by
      unfold read
      rw [hfb]
    rw [hread] at h
    dsimp only at h
    have hWlen : (extract r.buffer r.ready_start r.ready_end).length =
        r.ready_end - r.ready_start := extract_length _ _ _
    have hc1 : 1 ≤ min (extract r.buffer r.ready_start r.ready_end).length n := by
      rw [hWlen]
      omega
    rw [if_neg (by rw [List.length_take]; omega)] at h
    cases hmv : msgVia g n
        (consume r (min (extract r.buffer r.ready_start r.ready_end).length n)) with
    | none =>
      rw [hmv] at h
      cases h
    | some rest =>
      rw [hmv] at h
      simp only [Option.map_some', Option.some.injEq] at h
      by_cases hfull : r.ready_start +
          min (extract r.buffer r.ready_start r.ready_end).length n = r.ready_end
      · refine ⟨rest, g, by omega, ?_, ?_⟩
        · rw [← h]
          congr 1
          have hceq : min (extract r.buffer r.ready_start r.ready_end).length n =
              (extract r.buffer r.ready_start r.ready_end).length := by omega
          rw [hceq, List.take_length]
        · have hconsume : consume r
              (min (extract r.buffer r.ready_start r.ready_end).length n) =
              { r with ready_start := r.ready_end } := by
            unfold consume
            rw [hfull]
          rw [← hconsume]
          exact hmv
      · have hlt2 : (consume r
            (min (extract r.buffer r.ready_start r.ready_end).length n)).ready_start <
            (consume r (min (extract r.buffer r.ready_start r.ready_end).length n)).ready_end := by
          unfold consume
          dsimp only
          omega
        obtain ⟨o2, f2, hf2, ho2, hmv2⟩ := ih n _ rest hn hlt2 hmv
        refine ⟨o2, f2, by omega, ?_, ?_⟩
        · rw [← h, ho2]
          unfold consume
          dsimp only
          rw [extract_take]
          have hmin : min r.ready_end (r.ready_start +
              min (extract r.buffer r.ready_start r.ready_end).length n) =
              r.ready_start + min (extract r.buffer r.ready_start r.ready_end).length n := by
            omega
          rw [hmin]
          rw [← List.append_assoc]
          congr 1
          exact (extract_split r.buffer r.ready_start _ r.ready_end (by omega) (by omega)).symm
        · exact hmv2

theorem msgVia_after_fill {g c q : Nat} {w : List Nat} {r1 : MessageBoundaryReader}
    {o : List Nat} (hq : 1 ≤ q)
    (hwext : w = extract r1.buffer r1.ready_start r1.ready_end)
    (hwlen : r1.ready_start + w.length = r1.ready_end)
    (hcge : 1 ≤ c) (hcle : c ≤ w.length)
    (hmap : (msgVia g q (consume r1 c)).map (fun x => w.take c ++ x) = some o) :
    ∃ o' f', f' ≤ g ∧ o = w ++ o' ∧
      msgVia f' q { r1 with ready_start := r1.ready_end } = some o' := by
  cases hmv : msgVia g q (consume r1 c) with
  | none =>
    rw [hmv] at hmap
    cases hmap
  | some rest =>
    rw [hmv] at hmap
    simp only [Option.map_some', Option.some.injEq] at hmap
    by_cases hfull : c = w.length
    · refine ⟨rest, g, Nat.le_refl _, ?_, ?_⟩
      · rw [← hmap, hfull, List.take_length]
      · have hconsume : consume r1 c = { r1 with ready_start := r1.ready_end } := by
          unfold consume
          rw [show r1.ready_start + c = r1.ready_end by omega]
        rw [← hconsume]
        exact hmv
    · have hlt2 : (consume r1 c).ready_start < (consume r1 c).ready_end := by
        unfold consume
        dsimp only
        omega
      obtain ⟨o2', f2', hf2', ho2', hmv2'⟩ := msgVia_decomp g q _ rest hq hlt2 hmv
      refine ⟨o2', f2', by omega, ?_, ?_⟩
      · rw [← hmap, ho2']
        have hbuf : (consume r1 c).buffer = r1.buffer := rfl
        have hre : (consume r1 c).ready_end = r1.ready_end := rfl
        have hrs2 : (consume r1 c).ready_start = r1.ready_start + c := rfl
        rw [hbuf, hre, hrs2]
        rw [hwext, extract_take]
        have hwl2 : (extract r1.buffer r1.ready_start r1.ready_end).length =
            r1.ready_end - r1.ready_start := extract_length _ _ _
        have hmin : min r1.ready_end (r1.ready_start + c) = r1.ready_start + c := by
          rw [hwext] at hcle
          omega
        rw [hmin]
        rw [← List.append_assoc]
        congr 1
        refine (extract_split r1.buffer r1.ready_start _ r1.ready_end (by omega) ?_).symm
        rw [hwext] at hcle
        omega
      · exact hmv2'

theorem msgVia_unique (f1 f2 n m : Nat) (r : MessageBoundaryReader) (o1 o2 : List Nat)
    (hw : wf r) (hn : 1 ≤ n) (hm : 1 ≤ m)
    (h1 : msgVia f1 n r = some o1) (h2 : msgVia f2 m r = some o2) : o1 = o2 := by
  by_cases hlt : r.ready_start < r.ready_end
  · obtain ⟨o1', f1', hf1, ho1, hmv1⟩ := msgVia_decomp f1 n r o1 hn hlt h1
    obtain ⟨o2', f2', hf2, ho2, hmv2⟩ := msgVia_decomp f2 m r o2 hm hlt h2
    have hwd : wf { r with ready_start := r.ready_end } := by
      obtain ⟨w1, w2, w3, w4⟩ := hw
      exact ⟨Nat.le_refl _, w2, w3, w4⟩
    have hrec := msgVia_unique f1' f2' n m { r with ready_start := r.ready_end } o1' o2'
      hwd hn hm hmv1 hmv2
    rw [ho1, ho2, hrec]
  · have hrs : r.ready_start = r.ready_end := by
      obtain ⟨w1, _, _, _⟩ := hw
      omega
    cases f1 with
    | zero => rw [msgVia_zero] at h1; cases h1
    | succ g1 =>
      cases f2 with
      | zero => rw [msgVia_zero] at h2; cases h2
      | succ g2 =>
        rw [msgVia_succ] at h1
        rw [msgVia_succ] at h2
        cases hfb : fill_buf r with
        | error r' =>
          have hread : read r n = .error r' := by
            unfold read
            rw [hfb]
          rw [hread] at h1
          cases h1
        | ok p =>
          obtain ⟨w, r1⟩ := p
          obtain ⟨hwext, hwlen, hwf1⟩ := fill_buf_len hw hfb
          have hread1 : read r n = .ok (w.take (min w.length n),
              consume r1 (min w.length n)) := by
            unfold read
            rw [hfb]
          have hread2 : read r m = .ok (w.take (min w.length m),
              consume r1 (min w.length m)) := by
            unfold read
            rw [hfb]
          rw [hread1] at h1
          rw [hread2] at h2
          dsimp only at h1 h2
          by_cases hz : w.length = 0
          · rw [if_pos (by rw [List.length_take]; omega)] at h1
            rw [if_pos (by rw [List.length_take]; omega)] at h2
            cases h1
            cases h2
            rfl
          · rw [if_neg (by rw [List.length_take]; omega)] at h1
            rw [if_neg (by rw [List.length_take]; omega)] at h2
            obtain ⟨o1', f1', hf1, ho1, hmv1⟩ :=
              msgVia_after_fill hn hwext hwlen (by omega) (Nat.min_le_left _ _) h1
            obtain ⟨o2', f2', hf2, ho2, hmv2⟩ :=
              msgVia_after_fill hm hwext hwlen (by omega) (Nat.min_le_left _ _) h2
            have hwd : wf { r1 with ready_start := r1.ready_end } := by
              obtain ⟨v1, v2, v3, v4⟩ := hwf1
              exact ⟨Nat.le_refl _, v2, v3, v4⟩
            have hrec := msgVia_unique f1' f2' n m { r1 with ready_start := r1.ready_end }
              o1' o2' hwd hn hm hmv1 hmv2
            rw [ho1, ho2, hrec]
termination_by f1
decreasing_by
  · omega
  · omega

/-- C4: reading one message to completion in chunks of `n` bytes yields
the same byte sequence as reading it with any other chunk size `m` (in
particular one arbitrarily large call), for any chunk sizes ≥ 1, from any
well-formed reader state and for every input — the concatenation of
delivered bytes is independent of how reads are sized, including when the
six-byte marker straddles a buffer refill. -/
theorem c4_chunk_independent (f1 f2 n m : Nat) (r : MessageBoundaryReader)
    (o1 o2 : List Nat) (hw : wf r) (hn : 1 ≤ n) (hm : 1 ≤ m)
    (h1 : msgVia f1 n r = some o1) (h2 : msgVia f2 m r = some o2) : o1 = o2 :=
  msgVia_unique f1 f2 n m r o1 o2 hw hn hm h1 h2

/-- C4 witness: one-byte chunks and seven-byte chunks deliver the same
first message of `"From line1\nFrom line2"`. -/
theorem c4_chunk_independent_witness :
    wf c4r ∧ 1 ≤ 1 ∧ 1 ≤ 7 ∧ msgVia 40 1 c4r = some c4out ∧ msgVia 40 7 c4r = some c4out ∧
      c4out = c4out :=
  ⟨by decide, by decide, by decide, by decide, by decide,
    c4_chunk_independent 40 40 1 7 c4r c4out c4out (by decide) (by decide) (by decide)
      (by decide) (by decide)⟩

theorem drainMsg_succ (g : Nat) (r : MessageBoundaryReader) :
    drainMsg (g + 1) r =
      match fill_buf r with
      | .error r' => some (.error r')
      | .ok (w, r1) =>
        if w.length = 0 then some (.ok ([], r1))
        else
          match drainMsg g (consume r1 w.length) with
          | none => none
          | some (.error r'') => some (.error r'')
          | some (.ok (rest, r'')) => some (.ok (w ++ rest, r'')) := rfl

theorem drain_mono : ∀ f r x, drainMsg f r = some x → drainMsg (f + 1) r = some x := by
  intro f
  induction f with
  | zero => intro r x h; cases h
  | succ g ih =>
    intro r x h
    rw [drainMsg_succ] at h
    rw [drainMsg_succ]
    cases hfb : fill_buf r with
    | error r' =>
      rw [hfb] at h
      exact h
    | ok p =>
      obtain ⟨w, r1⟩ := p
      rw [hfb] at h
      dsimp only at h ⊢
      by_cases hz : w.length = 0
      · rw [if_pos hz] at h ⊢
        exact h
      · rw [if_neg hz] at h ⊢
        cases hd : drainMsg g (consume r1 w.length) with
        | none => rw [hd] at h; cases h
        | some e =>
          rw [hd] at h
          rw [ih _ _ hd]
          exact h

theorem drain_mono_le {f g : Nat} {r : MessageBoundaryReader}
    {x : Except MessageBoundaryReader (List Nat × MessageBoundaryReader)}
    (hle : f ≤ g) (h : drainMsg f r = some x) : drainMsg g r = some x := by
  induction g with
  | zero =>
    have : f = 0 := by omega
    subst this
    exact h
  | succ gg ih =>
    rcases Nat.lt_or_ge f (gg + 1) with hlt | hge
    · exact drain_mono gg r x (ih (by omega))
    · have : f = gg + 1 := by omega
      subst this
      exact h

theorem skip_mono : ∀ f r x, skip_message f r = some x → skip_message (f + 1) r = some x := by
  intro f
  induction f with
  | zero => intro r x h; cases h
  | succ g ih =>
    intro r x h
    unfold skip_message at h ⊢
    cases hfb : fill_buf r with
    | error r' =>
      rw [hfb] at h
      exact h
    | ok p =>
      obtain ⟨w, r1⟩ := p
      rw [hfb] at h
      dsimp only at h ⊢
      by_cases hz : w.length = 0
      · rw [if_pos hz] at h ⊢
        exact h
      · rw [if_neg hz] at h ⊢
        exact ih _ _ h

theorem next_mono (f : Nat) (m : MboxReader) (x : NextOut)
    (h : MboxReader.next f m = some x) : MboxReader.next (f + 1) m = some x := by
  unfold MboxReader.next at h ⊢
  cases he1 : eof m.inner with
  | error r' => rw [he1] at h; exact h
  | ok p =>
    obtain ⟨b, r'⟩ := p
    rw [he1] at h
    cases b with
    | true => exact h
    | false =>
      dsimp only at h ⊢
      by_cases hf : m.first = true
      · rw [if_pos hf] at h ⊢
        exact h
      · rw [if_neg hf] at h ⊢
        by_cases heo : eom r' = true
        · rw [if_pos heo] at h ⊢
          exact h
        · rw [if_neg heo] at h ⊢
          cases hs : skip_message f r' with
          | none => rw [hs] at h; cases h
          | some e =>
            rw [hs] at h
            rw [skip_mono f r' e hs]
            exact h

theorem runAll_succ (f : Nat) (m : MboxReader) :
    runAll (f + 1) m =
      match MboxReader.next (f + 1) m with
      | none => none
      | some (.ioErr m') => some (.error m'.inner)
      | some (.finished m') => some (.ok ([], m'.inner))
      | some (.entry m') =>
        match drainMsg (f + 1) m'.inner with
        | none => none
        | some (.error r') => some (.error r')
        | some (.ok (msg, r')) =>
          match runAll f ⟨r', m'.first⟩ with
          | none => none
          | some (.error rf) => some (.error rf)
          | some (.ok (msgs, rf)) => some (.ok (msg :: msgs, rf)) := rfl

theorem runAll_mono : ∀ f m x, runAll f m = some x → runAll (f + 1) m = some x := by
  intro f
  induction f with
  | zero => intro m x h; cases h
  | succ g ih =>
    intro m x h
    rw [runAll_succ] at h
    rw [runAll_succ]
    cases hn : MboxReader.next (g + 1) m with
    | none => rw [hn] at h; cases h
    | some e =>
      rw [hn] at h
      rw [next_mono (g + 1) m e hn]
      cases e with
      | ioErr m' => exact h
      | finished m' => exact h
      | entry m' =>
        dsimp only at h ⊢
        cases hd : drainMsg (g + 1) m'.inner with
        | none => rw [hd] at h; cases h
        | some e2 =>
          rw [hd] at h
          rw [drain_mono (g + 1) m'.inner e2 hd]
          cases e2 with
          | error r' => exact h
          | ok q =>
            obtain ⟨msg, r'⟩ := q
            dsimp only at h ⊢
            cases hr : runAll g ⟨r', m'.first⟩ with
            | none => rw [hr] at h; cases h
            | some e3 =>
              rw [hr] at h
              rw [ih _ _ hr]
              exact h

theorem runAll_mono_le {f g : Nat} {m : MboxReader}
    {x : Except MessageBoundaryReader (List (List Nat) × MessageBoundaryReader)}
    (hle : f ≤ g) (h : runAll f m = some x) : runAll g m = some x := by
  induction g with
  | zero =>
    have : f = 0 := by omega
    subst this
    exact h
  | succ gg ih =>
    rcases Nat.lt_or_ge f (gg + 1) with hlt | hge
    · exact runAll_mono gg m x (ih (by omega))
    · have : f = gg + 1 := by omega
      subst this
      exact h

theorem drain_total : ∀ p r, good r → pending r ≤ p →
    ∃ msg r', drainMsg (p + 1) r = some (.ok (msg, r')) ∧
      good r' ∧
      msg.length + pending r' + r'.removed = pending r + r.removed ∧
      r.removed ≤ r'.removed ∧
      (eom r' = true ∨ eofSt r') ∧
      r'.ready_start = r'.ready_end ∧
      (msg = [] → (eom r = true ∨ eofSt r)) := by
  intro p
  induction p with
  | zero =>
    intro r hg hp
    obtain ⟨w, r1, hfb⟩ := fill_buf_no_error hg.1 hg.2.2.1
    obtain ⟨hg1, hpend, hrem, hwex, hlen, hiff, hempty⟩ := fill_buf_spec hg hfb
    have hend : eom r = true ∨ eofSt r := by
      obtain ⟨w1, w2, w3, w4⟩ := hg.1
      have hdata : r.src.data = [] := by
        have : r.src.data.length = 0 := by
          unfold pending at hp
          omega
        exact List.eq_nil_of_length_eq_zero this
      have hbe : r.buffer_end ≤ r.ready_start := by
        have : r.src.data.length = 0 := by rw [hdata]; rfl
        unfold pending at hp
        omega
      rcases hg.2.1 with hn | ⟨hs, _⟩
      · exact Or.inr ⟨by omega, by omega, by omega, hdata, hn⟩
      · exact Or.inl ((eom_some hs).mpr (by omega))
    have hwnil : w = [] := hiff.mpr hend
    subst hwnil
    refine ⟨[], r1, ?_, hg1, by simpa using hpend, hrem, ?_, by simpa using hlen,
      fun _ => hend⟩
    · rw [drainMsg_succ, hfb]
      simp
    · rcases hempty rfl with ⟨he, _⟩ | ⟨he, _⟩
      · exact Or.inl he
      · exact Or.inr he
  | succ q ih =>
    intro r hg hp
    obtain ⟨w, r1, hfb⟩ := fill_buf_no_error hg.1 hg.2.2.1
    obtain ⟨hg1, hpend, hrem, hwex, hlen, hiff, hempty⟩ := fill_buf_spec hg hfb
    by_cases hw : w = []
    · subst hw
      refine ⟨[], r1, ?_, hg1, by simpa using hpend, hrem, ?_, by simpa using hlen,
        fun _ => hiff.mp rfl⟩
      · rw [drainMsg_succ, hfb]
        simp
      · rcases hempty rfl with ⟨he, _⟩ | ⟨he, _⟩
        · exact Or.inl he
        · exact Or.inr he
    · have hwl : 0 < w.length := List.length_pos.mpr hw
      obtain ⟨y1, y2, y3, y4⟩ := hg1.1
      have hg2 : good (consume r1 w.length) := by
        refine ⟨⟨?_, ?_, ?_, ?_⟩, ?_, hg1.2.2.1, hg1.2.2.2.1, ?_⟩ <;>
          first
            | (show r1.ready_start + w.length ≤ r1.ready_end; omega)
            | exact y2
            | exact y3
            | exact y4
            | exact hg1.2.1
            | exact hg1.2.2.2.2
      have hpend2 : pending (consume r1 w.length) + w.length = pending r1 := by
        unfold pending consume
        dsimp only
        omega
      have hrem2 : (consume r1 w.length).removed = r1.removed := rfl
      have hple : pending (consume r1 w.length) ≤ q := by
        have h1 : pending r1 ≤ pending r := by omega
        omega
      obtain ⟨msg', r', hdr, hgr, hsum, hmon, hfin, heq, _⟩ :=
        ih (consume r1 w.length) hg2 hple
      refine ⟨w ++ msg', r', ?_, hgr, ?_, ?_, hfin, heq, ?_⟩
      · rw [drainMsg_succ, hfb]
        dsimp only
        rw [if_neg (by omega), hdr]
      · rw [List.length_append]
        rw [hrem2] at hsum
        omega
      · rw [hrem2] at hmon
        omega
      · intro hmm
        exact absurd (List.append_eq_nil.mp hmm).1 hw

theorem next_at_eom (f : Nat) (r : MessageBoundaryReader) (he : eom r = true) :
    MboxReader.next f ⟨r, false⟩ = some (.entry ⟨reset_eom r, false⟩) := by
  unfold MboxReader.next
  have heof : eof r = .ok (false, r) := by
    unfold eof
    rw [if_pos he]
  dsimp only
  rw [heof]
  dsimp only
  rw [if_neg (by simp), if_pos he]

theorem next_finished (f : Nat) (b : Bool) (r r1 : MessageBoundaryReader)
    (heom : eom r = false) (hfb : fill_buf r = .ok ([], r1)) :
    MboxReader.next f ⟨r, b⟩ = some (.finished ⟨r1, b⟩) := by
  unfold MboxReader.next
  have heof : eof r = .ok (true, r1) := by
    unfold eof
    rw [if_neg (by simp [heom]), hfb]
    exact rfl
  dsimp only
  rw [heof]

theorem next_first (f : Nat) (r : MessageBoundaryReader) (w : List Nat)
    (r1 : MessageBoundaryReader) (hne : w ≠ []) (heom : eom r = false)
    (hfb : fill_buf r = .ok (w, r1)) :
    MboxReader.next f ⟨r, true⟩ = some (.entry ⟨r1, false⟩) := by
  unfold MboxReader.next
  have heof : eof r = .ok (false, r1) := by
    unfold eof
    rw [if_neg (by simp [heom]), hfb]
    have hemp : w.isEmpty = false := by
      cases w with
      | nil => exact absurd rfl hne
      | cons a t => rfl
    dsimp only
    rw [hemp]
  dsimp only
  rw [heof]
  dsimp only
  rw [if_pos rfl]

theorem run_from : ∀ p r, good r → pending r ≤ p → r.ready_start = r.ready_end →
    (eom r = true ∨ eofSt r) →
    ∃ fuel msgs rf, runAll fuel (⟨r, false⟩ : MboxReader) = some (.ok (msgs, rf)) ∧
      (msgs.map List.length).sum + rf.removed = pending r + r.removed := by
  intro p
  induction p using Nat.strong_induction_on with
  | _ p ih =>
    intro r hg hp hrse hfin
    rcases hfin with heom | heof
    · -- at a message boundary: reset, drain the next record, recurse
      have hr2g : good (reset_eom r) := by
        obtain ⟨hw, _, hplan, hcap, hb5⟩ := hg
        exact ⟨hw, Or.inl rfl, hplan, hcap, hb5⟩
      have hr2p : pending (reset_eom r) = pending r := rfl
      have hr2rem : (reset_eom r).removed = r.removed := rfl
      obtain ⟨msg, r3, hdr, hg3, hsum3, hmon3, hfin3, heq3, hnil3⟩ :=
        drain_total p (reset_eom r) hr2g (by omega)
      have hnm : r.next_message_start = some r.ready_end ∧ r.ready_end + 5 ≤ r.held_back := by
        rcases hg.2.1 with hn | hs
        · rw [eom_none hn] at heom
          cases heom
        · exact hs
      have hmsgne : msg ≠ [] := by
        intro hmm
        rcases hnil3 hmm with h1 | h1
        · rw [eom_none rfl] at h1
          cases h1
        · have : (reset_eom r).ready_end = (reset_eom r).held_back := h1.2.1
          have h2 : r.ready_end = r.held_back := this
          omega
      have hmlen : 0 < msg.length := List.length_pos.mpr hmsgne
      have hlt : pending r3 < p := by omega
      obtain ⟨fuel2, msgs, rf, hrun2, hsum2⟩ :=
        ih (pending r3) hlt r3 hg3 (Nat.le_refl _) heq3 hfin3
      refine ⟨max p fuel2 + 1, msg :: msgs, rf, ?_, ?_⟩
      · rw [runAll_succ]
        rw [next_at_eom (max p fuel2 + 1) r heom]
        dsimp only
        rw [drain_mono_le (by omega) hdr]
        dsimp only
        rw [runAll_mono_le (Nat.le_max_right p fuel2) hrun2]
      · rw [List.map_cons, List.sum_cons]
        omega
    · -- source exhausted: one finishing step
      have heomF : eom r = false := eom_none heof.2.2.2.2
      obtain ⟨w, r1, hfb⟩ := fill_buf_no_error hg.1 hg.2.2.1
      obtain ⟨hg1, hpend, hrem, hwex, hlen, hiff, hempty⟩ := fill_buf_spec hg hfb
      have hwnil : w = [] := hiff.mpr (Or.inr heof)
      subst hwnil
      have hpr : pending r = 0 := by
        obtain ⟨h1, h2, h3, h4, h5⟩ := heof
        unfold pending
        rw [h4]
        simp
        omega
      have hrem1 : r1.removed = r.removed := by
        rcases hempty rfl with ⟨_, hr1e⟩ | ⟨_, hr1e⟩
        · rw [hr1e]
        · exact hr1e
      refine ⟨1, [], r1, ?_, ?_⟩
      · rw [runAll_succ]
        rw [next_finished 1 false r r1 heomF hfb]
      · simp [hpr, hrem1]

/-- C5 counterexample: for the input `"a\nFrom b"` (8 bytes) the consumer
loop terminates with records `"a\n"` (2 bytes) and `"From b"` (6 bytes)
and no escape removed, so the records alone already account for all 8
input bytes; adding the boundary marker's line break as the claim
prescribes gives `(2 + 6) + 1 ≠ 8 - 0`, refuting the claimed byte
accounting (the marker's line break is delivered inside the first
record, not in addition to the records). -/
theorem c5_counterexample :
    runMsgs (runAll 20 (MboxReader.new c5src)) =
      some [[97, 10], [70, 114, 111, 109, 32, 98]] ∧
    runRemoved (runAll 20 (MboxReader.new c5src)) = some 0 ∧
    (2 + 6) + 1 ≠ c5src.data.length - 0 := by
  refine ⟨by decide, by decide, by decide⟩

/-- C5 (amended): for every finite input, the consumer loop (repeatedly
taking the next record until none remains) terminates with some fuel,
yields records free of errors, and the total number of bytes across all
yielded records equals the input length minus the escape bytes removed
(each boundary marker's line break is counted inside the record that
ends with it, not separately). -/
theorem c5_total_bytes (bs : List Nat) :
    ∃ fuel msgs rf,
      runAll fuel (MboxReader.new ⟨bs, []⟩) = some (.ok (msgs, rf)) ∧
      (msgs.map List.length).sum + rf.removed = bs.length := by
  have hg0 : good (MessageBoundaryReader.new ⟨bs, []⟩) := good_new _ rfl
  have heom0 : eom (MessageBoundaryReader.new ⟨bs, []⟩) = false := eom_none (new_nms _)
  have hp0 : pending (MessageBoundaryReader.new ⟨bs, []⟩) = bs.length := by
    show bs.length + (0 - 0) = bs.length
    omega
  have hrem0 : (MessageBoundaryReader.new ⟨bs, []⟩).removed = 0 := rfl
  obtain ⟨w, r1, hfb⟩ := fill_buf_no_error hg0.1 hg0.2.2.1
  obtain ⟨hg1, hpend, hrem, hwex, hlen, hiff, hempty⟩ := fill_buf_spec hg0 hfb
  by_cases hw : w = []
  · subst hw
    have heof0 : eofSt (MessageBoundaryReader.new ⟨bs, []⟩) := by
      rcases hiff.mp rfl with h | h
      · rw [heom0] at h
        cases h
      · exact h
    have hbs : bs = [] := heof0.2.2.2.1
    have hrem1 : r1.removed = 0 := by
      rcases hempty rfl with ⟨_, hr1e⟩ | ⟨_, hr1e⟩
      · rw [hr1e]
        exact hrem0
      · rw [hr1e]
        exact hrem0
    refine ⟨1, [], r1, ?_, ?_⟩
    · show runAll 1 (⟨MessageBoundaryReader.new ⟨bs, []⟩, true⟩ : MboxReader) = _
      rw [runAll_succ, next_finished 1 true _ r1 heom0 hfb]
    · simp [hbs, hrem1]
  · obtain ⟨msg, r3, hdr, hg3, hsum3, hmon3, hfin3, heq3, _⟩ :=
      drain_total (pending r1) r1 hg1 (Nat.le_refl _)
    obtain ⟨fuel2, msgs, rf, hrun2, hsum2⟩ :=
      run_from (pending r3) r3 hg3 (Nat.le_refl _) heq3 hfin3
    refine ⟨max (pending r1) fuel2 + 1, msg :: msgs, rf, ?_, ?_⟩
    · show runAll (max (pending r1) fuel2 + 1)
        (⟨MessageBoundaryReader.new ⟨bs, []⟩, true⟩ : MboxReader) = _
      rw [runAll_succ, next_first (max (pending r1) fuel2 + 1) _ w r1 hw heom0 hfb]
      dsimp only
      rw [drain_mono_le (by omega) hdr]
      dsimp only
      rw [runAll_mono_le (Nat.le_max_right (pending r1) fuel2) hrun2]
    · rw [List.map_cons, List.sum_cons]
      omega

end Mbox
